import Mathlib

/-!
Verification of the protoc-gen-bean code generator (package pkg/generator,
entry point cmd/protoc-gen-bean) against its natural-language specification.

Strings handled by the Go code are byte strings; we shallowly embed them as
lists of byte values (Lean Nat), written Str below.  String literals are
injected with the helper bs.  All definitions are direct transcriptions of
the Go source: CamelCase and unescape from pkg/generator/helper.go, the
emission engine (P, In, Out, PrintComments) and the pipeline
(CommandLineParameters, WrapTypes, BuildTypeNameMap, GenerateAllFiles) from
pkg/generator/generator.go, and the per-construct generators from
pkg/generator/template.go and pkg/generator (bean/converter code).
-/

set_option maxRecDepth 10000
set_option maxHeartbeats 1000000

namespace PGB

/-- Byte strings: Go strings are byte arrays; each element is a byte value. -/
abbrev Str := List Nat

/-- Inject a Lean string literal as a byte string (all literals used are ASCII). -/
def bs (s : String) : Str := s.data.map Char.toNat

/-- helper.go isASCIILower: is c an ASCII lower-case letter? -/
def isASCIILower (c : Nat) : Bool := 97 ≤ c && c ≤ 122

/-- helper.go isASCIIUpper: is c an ASCII upper-case letter? -/
def isASCIIUpper (c : Nat) : Bool := 65 ≤ c && c ≤ 90

/-- helper.go isASCIIDigit: is c an ASCII digit? -/
def isASCIIDigit (c : Nat) : Bool := 48 ≤ c && c ≤ 57

/-- The Go expression c ^= ' ' used by CamelCase to flip the case bit. -/
def xorSpace (c : Nat) : Nat := c ^^^ 32

/-- Is the head of the remaining input an ASCII lower-case letter?
This is the Go test i+1 < len(s) && isASCIILower(s[i+1]). -/
def nextIsLower : Str → Bool
  | [] => false
  | d :: _ => isASCIILower d

/-- The main loop of helper.go CamelCase (lines 40-60): process a word at a
time; an underscore followed by a lower-case letter is skipped, digits pass
through, and each word is emitted with its first letter upper-cased followed
by the run of lower-case letters that follows it in the input. -/
def camelLoop : Str → Str
  | [] => []
  | c :: rest =>
    if c = 95 && nextIsLower rest then
      camelLoop rest
    else if isASCIIDigit c then
      c :: camelLoop rest
    else
      (if isASCIILower c then xorSpace c else c)
        :: (rest.takeWhile isASCIILower ++ camelLoop (rest.dropWhile isASCIILower))
termination_by l => l.length
decreasing_by
  all_goals simp only [List.length_cons]
  all_goals first
    | omega
    | exact Nat.lt_succ_of_le ((List.dropWhile_sublist _).length_le)

/-- The final step of helper.go CamelCase (lines 61-63): if t[0] is an ASCII
upper-case letter it is xor-ed with the space bit, making it lower case. -/
def lowerHead : Str → Str
  | [] => []
  | c :: r => (if isASCIIUpper c then xorSpace c else c) :: r

/-- helper.go CamelCase: returns the camelCased name (empty input maps to
empty output; otherwise run the word loop and lower-case the first byte). -/
def CamelCase (s : Str) : Str :=
  if s = [] then [] else lowerHead (camelLoop s)

/-- Adjacent-pair invariant of camelLoop output: a lower-case letter is never
preceded by an underscore (it would have been skipped) nor by a digit (it
would have started a new upper-cased word). -/
def okPair (a b : Nat) : Prop :=
  isASCIILower b = true → a ≠ 95 ∧ isASCIIDigit a = false

/-- Upper-case the first byte if it is a lower-case letter; this is what one
pass of the camelLoop does to a string that is already in its image. -/
def upperHead : Str → Str
  | [] => []
  | c :: r => (if isASCIILower c then xorSpace c else c) :: r

/-! Byte-default unescaping (helper.go unescape, lines 252-311). -/

/-- The escapeChars table of helper.go: named C escapes; 0 means absent. -/
def escapeChars (c : Nat) : Nat :=
  if c = 97 then 7 else if c = 98 then 8 else if c = 102 then 12
  else if c = 110 then 10 else if c = 114 then 13 else if c = 116 then 9
  else if c = 118 then 11 else if c = 92 then 92 else if c = 34 then 34
  else if c = 39 then 39 else if c = 63 then 63 else 0

/-- Value of a hexadecimal digit byte, as accepted by strconv.ParseUint base 16. -/
def hexDigitVal (c : Nat) : Option Nat :=
  if 48 ≤ c ∧ c ≤ 57 then some (c - 48)
  else if 97 ≤ c ∧ c ≤ 102 then some (c - 87)
  else if 65 ≤ c ∧ c ≤ 70 then some (c - 55)
  else none

/-- Is this byte an octal digit (the TrimLeft set 01234567 of helper.go)? -/
def isOctalDigit (c : Nat) : Bool := 48 ≤ c && c ≤ 55

/-- Value of a string of octal digit bytes (strconv.ParseUint base 8). -/
def octalVal (digs : Str) : Nat := digs.foldl (fun a c => 8 * a + (c - 48)) 0

/-- helper.go unescape: reverses the C escaping protoc applies to default
values of bytes fields.  Best effort: seemingly invalid escape sequences are
conveyed, unmodified, into the decoded result.  A hex escape consumes
exactly two digits (ParseUint errors leave the four source bytes in place);
an octal escape consumes one to three leading octal digits and leaves the
source bytes in place when the value exceeds 8 bits (ParseUint range error). -/
def unescape : Str → Str
  | [] => []
  | c :: rest =>
    -- regular character, or too short to be a valid escape
    if c ≠ 92 ∨ rest = [] then c :: unescape rest
    else match hr : rest with
      | [] => []  -- unreachable: the guard above covers rest = []
      | e :: rest2 =>
        if escapeChars e ≠ 0 then escapeChars e :: unescape rest2
        else if e = 120 ∨ e = 88 then
          match hr2 : rest2 with
          | h1 :: h2 :: rest4 =>
            match hexDigitVal h1, hexDigitVal h2 with
            | some v1, some v2 => (16 * v1 + v2) :: unescape rest4
            | _, _ => c :: e :: h1 :: h2 :: unescape rest4
          | _ => c :: e :: unescape rest2  -- too short to be valid
        else if isOctalDigit e then
          if octalVal (e :: (rest2.takeWhile isOctalDigit).take 2) ≤ 255 then
            octalVal (e :: (rest2.takeWhile isOctalDigit).take 2)
              :: unescape (rest2.drop ((rest2.takeWhile isOctalDigit).take 2).length)
          else
            (c :: e :: (rest2.takeWhile isOctalDigit).take 2)
              ++ unescape (rest2.drop ((rest2.takeWhile isOctalDigit).take 2).length)
        else
          -- bad escape, just propagate the slash as-is
          c :: unescape rest
termination_by l => l.length
decreasing_by
  all_goals simp_all only [List.length_cons, List.length_drop]
  all_goals omega

/-! The emission engine of generator.go: an indentation-aware text sink.
The Generator fields used by emission are the output buffer, the current
indent and the writeOutput flag; the remaining fields (request, response,
parameters, type map, current file) are passed explicitly to the emission
functions that read them. -/

/-- generator.go DefaultIndent: four spaces. -/
def DefaultIndent : Str := bs "    "

/-- generator.go GeneratorName. -/
def GeneratorName : Str := bs "protoc-gen-bean"

/-- The mutable emission state of generator.Generator: the embedded
bytes.Buffer, the indent string and the writeOutput flag. -/
structure GenState where
  buffer : Str
  indent : Str
  writeOutput : Bool

deriving DecidableEq

/-- An argument to Generator.P: the pipeline passes strings (also package
name strings) and int32 values (enum numbers); printAtom renders the former
verbatim and the latter in decimal. -/
inductive Atom where
  | s (v : Str)
  | i (n : Int)

deriving DecidableEq

/-- generator.go printAtom, restricted to the argument types the pipeline
passes: strings are written verbatim, integers in decimal via fmt. -/
def renderAtom : Atom → Str
  | .s v => v
  | .i n => bs (toString n)

def renderAtoms (l : List Atom) : Str := (l.map renderAtom).flatten

/-- generator.go P: prints the arguments to the generated output followed by
a newline, prefixed by the current indent; a no-op when writeOutput is off. -/
def GenState.P (g : GenState) (atoms : List Atom) : GenState :=
  if !g.writeOutput then g
  else { g with buffer := g.buffer ++ g.indent ++ renderAtoms atoms ++ [10] }

/-- generator.go In: indents the output one tab stop. -/
def GenState.In (g : GenState) : GenState :=
  { g with indent := g.indent ++ DefaultIndent }

/-- generator.go Out: unindents the output one tab stop; the Go body slices
indent[len(DefaultIndent):] only when the indent is nonempty. -/
def GenState.Out (g : GenState) : GenState :=
  if g.indent.length > 0 then { g with indent := g.indent.drop DefaultIndent.length }
  else g

/-- The Go slice expression indent[len(DefaultIndent):] guarded by the
nonemptiness test, with the slice bound made explicit: slicing a nonempty
string shorter than DefaultIndent would panic, modeled as none. -/
def outIndentGo (indent : Str) : Option Str :=
  if indent.length = 0 then some indent
  else if DefaultIndent.length ≤ indent.length then some (indent.drop DefaultIndent.length)
  else none

/-- Source location comments of one file, keyed by comma-joined paths
(generator.go extractComments keeps only locations with leading comments). -/
structure CommentLoc where
  leading : Str
  trailing : Option Str

deriving DecidableEq

/-- Go map lookup over an association list built by prepending on insert:
the most recent insertion for a key is found first, which is exactly the
overwrite semantics of Go map assignment. -/
def lookupStr {α : Type} (m : List (Str × α)) (k : Str) : Option α :=
  (m.find? (fun p => p.1 == k)).map (fun p => p.2)

/-- Go strings.TrimSuffix(s, newline): drops one trailing newline if present. -/
def trimNlSuffix (s : Str) : Str :=
  if s.getLast? = some 10 then s.dropLast else s

/-- generator.go makeComments: the leading comment for a path, each line
prefixed with a double slash, lines joined by newlines; none when the path
has no location or the location has no leading comment. -/
def makeComments (cm : List (Str × CommentLoc)) (path : Str) : Option Str :=
  match lookupStr cm path with
  | none => none
  | some loc =>
    some (List.intercalate [10]
      ((List.splitOn 10 (trimNlSuffix loc.leading)).map (fun l => bs "//" ++ l)))

/-- generator.go tailingComments, same shape for the trailing comment text.
A location whose leading comment was nil was never stored by
extractComments, so only stored locations can produce trailing text. -/
def tailingComments (cm : List (Str × CommentLoc)) (path : Str) : Option Str :=
  match lookupStr cm path with
  | none => none
  | some loc =>
    match loc.trailing with
    | none => none
    | some t =>
      some (List.intercalate [10]
        ((List.splitOn 10 (trimNlSuffix t)).map (fun l => bs "//" ++ l)))

/-- generator.go PrintComments: prints the leading comments for the path and
reports whether anything was printed; returns false immediately (leaving the
state untouched) when writeOutput is off. -/
def GenState.PrintComments (g : GenState) (cm : List (Str × CommentLoc)) (path : Str) :
    GenState × Bool :=
  if !g.writeOutput then (g, false)
  else match makeComments cm path with
    | some c => (g.P [.s c], true)
    | none => (g, false)

/-! Claims C9 and C10 about the emission engine. -/

/-- A sequence of In and Out calls on the generator. -/
inductive IndentOp where
  | inOp
  | outOp

deriving DecidableEq

/-- Apply a sequence of In and Out calls to the generator state. -/
def applyIndentOps (g : GenState) : List IndentOp → GenState
  | [] => g
  | .inOp :: ops => applyIndentOps g.In ops
  | .outOp :: ops => applyIndentOps g.Out ops

/-- The indent depth reached by a sequence of In and Out calls, starting at
depth d: In adds one, Out subtracts one with saturation at zero. -/
def depthRun (d : Nat) : List IndentOp → Nat
  | [] => d
  | .inOp :: ops => depthRun (d + 1) ops
  | .outOp :: ops => depthRun (d - 1) ops

/-- DefaultIndent repeated d times. -/
def indentOf (d : Nat) : Str := (List.replicate d DefaultIndent).flatten

/-! Command-line parameter handling (generator.go CommandLineParameters and
helper.go paramToJavaPackage). -/

/-- ASCII fragment of Go strings.ToLower (package names are ASCII). -/
def asciiToLower (c : Nat) : Nat := if isASCIIUpper c then c + 32 else c

/-- helper.go paramToJavaPackage: empty stays empty; otherwise lower-case the
parameter and strip all leading and trailing dots (the Go loops of
TrimPrefix and TrimSuffix). -/
def paramToJavaPackage (param : Str) : Str :=
  if param = [] then []
  else
    ((((param.map asciiToLower).dropWhile (fun c => c == 46)).reverse.dropWhile
      (fun c => c == 46)).reverse)

/-- One comma-separated token split at its first equals sign: no equals sign
gives (token, empty), otherwise the key is everything before the first
equals sign and the value everything after it. -/
def parseParamToken (p : Str) : Str × Str :=
  match p.dropWhile (fun c => !(c == 61)) with
  | [] => (p, [])
  | _ :: v => (p.takeWhile (fun c => !(c == 61)), v)

/-- The Param map of generator.go, an association list with Go-map overwrite
semantics: tokens are inserted in order by prepending, so a lookup sees the
most recently inserted binding for a key first. -/
def buildParamMap (tokens : List Str) : List (Str × Str) :=
  tokens.foldl (fun m p => parseParamToken p :: m) []

/-- The configuration produced by CommandLineParameters. -/
structure Config where
  valueObjectPackage : Str
  converterPackage : Str

deriving DecidableEq

/-- generator.go CommandLineParameters: split the parameter on commas into
key/value tokens, interpret vopkg and cvtpkg through paramToJavaPackage,
fail when no value-object package results, and default the converter package
to the value-object package with a converter suffix. -/
def CommandLineParameters (parameter : Str) : Except Str Config :=
  let m := buildParamMap (List.splitOn 44 parameter)
  let vo := match lookupStr m (bs "vopkg") with
    | none => []
    | some v => paramToJavaPackage v
  let cvt := match lookupStr m (bs "cvtpkg") with
    | none => []
    | some v => paramToJavaPackage v
  if vo = [] then
    .error (bs "invalid vo package, use --bean_out=vopkg=[package.of.vo], to set")
  else if cvt = [] then
    .ok ⟨vo, vo ++ bs ".converter"⟩
  else
    .ok ⟨vo, cvt⟩

/-! The raw descriptor data model: the parts of CodeGeneratorRequest the
pipeline reads (FileDescriptorProto, DescriptorProto, EnumDescriptorProto,
FieldDescriptorProto, SourceCodeInfo).  Options accessors GetDeprecated and
GetMapEntry are modeled as plain booleans (nil options read as false). -/

/-- FieldDescriptorProto.Label values. -/
inductive Label where
  | optionalL
  | requiredL
  | repeatedL

deriving DecidableEq

/-- FieldDescriptorProto.Type values. -/
inductive FieldType where
  | doubleT | floatT | int64T | uint64T | int32T | fixed64T | fixed32T | boolT
  | stringT | groupT | messageT | bytesT | uint32T | enumT | sfixed32T
  | sfixed64T | sint32T | sint64T

deriving DecidableEq

structure FieldProto where
  name : Str
  number : Int
  label : Option Label
  type : Option FieldType
  typeName : Str

deriving DecidableEq

structure EnumValueProto where
  name : Str
  number : Int

deriving DecidableEq

structure EnumProto where
  name : Str
  value : List EnumValueProto
  deprecated : Bool

deriving DecidableEq

/-- DescriptorProto: name, fields, nested types, nested enums, and the
options bits the generator reads (map_entry and deprecated). -/
inductive MessageProto where
  | mk (name : Str) (field : List FieldProto) (nestedType : List MessageProto)
       (enumType : List EnumProto) (mapEntry : Bool) (deprecated : Bool)

def MessageProto.name : MessageProto → Str
  | .mk n _ _ _ _ _ => n

def MessageProto.field : MessageProto → List FieldProto
  | .mk _ f _ _ _ _ => f

def MessageProto.nestedType : MessageProto → List MessageProto
  | .mk _ _ nt _ _ _ => nt

def MessageProto.enumType : MessageProto → List EnumProto
  | .mk _ _ _ et _ _ => et

def MessageProto.mapEntry : MessageProto → Bool
  | .mk _ _ _ _ me _ => me

def MessageProto.deprecated : MessageProto → Bool
  | .mk _ _ _ _ _ d => d

/-- FileOptions fields the generator reads. -/
structure FileOptions where
  javaPackage : Str
  javaOuterClassname : Str
  deprecated : Bool

deriving DecidableEq

/-- One SourceCodeInfo location: its integer path and comment texts. -/
structure SourceLoc where
  path : List Nat
  leading : Option Str
  trailing : Option Str

deriving DecidableEq

/-- FileDescriptorProto: the fields the pipeline reads.  The dependency and
public-dependency lists feed only wrapImported, whose output (file.imp) is
never consumed by the bean or converter emission, so they are omitted. -/
structure FileProto where
  name : Str
  pkg : Str
  messageType : List MessageProto
  enumType : List EnumProto
  options : Option FileOptions
  sourceInfo : List SourceLoc

/-- CodeGeneratorRequest: input files, the generate set and the parameter. -/
structure Request where
  protoFile : List FileProto
  fileToGenerate : List Str
  parameter : Str

/-! The flat wrap of generator.go (wrapDescriptors and wrapThisDescriptor in
the descriptor model file): a pre-order list of message wrappers where each
wrapper holds a back-reference to its parent.  Pointer identity of the Go
code becomes the position id assigned at insertion. -/

structure FlatDesc where
  id : Nat
  parent : Option Nat
  raw : MessageProto

/-- wrapThisDescriptor: append this message, then recursively append its
nested messages with this message as their parent. -/
def wrapThisDescriptor (sl : List FlatDesc) (parent : Option Nat) (m : MessageProto) :
    List FlatDesc :=
  match m with
  | .mk n f nested enums me dep =>
    nested.attach.foldl
      (fun acc child => wrapThisDescriptor acc (some sl.length) child.1)
      (sl ++ [⟨sl.length, parent, .mk n f nested enums me dep⟩])
termination_by sizeOf m
decreasing_by
  have := List.sizeOf_lt_of_mem child.2
  simp only [MessageProto.mk.sizeOf_spec]
  omega

/-- wrapDescriptors: all messages of a file, top-level ones in order. -/
def wrapDescriptors (file : FileProto) : List FlatDesc :=
  file.messageType.foldl (fun acc m => wrapThisDescriptor acc none m) []

/-- A wrapped enum with its parent back-reference (wrapEnumDescriptors). -/
structure FlatEnum where
  parent : Option Nat
  raw : EnumProto

/-- wrapEnumDescriptors: top-level enums first, then the enums of each
wrapped message in flat order. -/
def wrapEnumDescriptors (file : FileProto) (descs : List FlatDesc) : List FlatEnum :=
  file.enumType.map (fun e => ⟨none, e⟩)
    ++ descs.flatMap (fun d => d.raw.enumType.map (fun e => ⟨some d.id, e⟩))

/-- Structural effectful map over a list in the Except monad, stopping at
the first error exactly as a Go loop calling Fail does. -/
def mapE {α β : Type} (f : α → Except Str β) : List α → Except Str (List β)
  | [] => .ok []
  | a :: l =>
    match f a with
    | .error e => .error e
    | .ok b =>
      match mapE f l with
      | .error e => .error e
      | .ok bl => .ok (b :: bl)

/-- generator.go buildNestedDescriptors: for each wrapper with declared
nested types, collect the wrappers naming it as parent and fail on a count
mismatch with the declared nested-type count. -/
def buildNestedDescriptors (descs : List FlatDesc) :
    Except Str (List (FlatDesc × List Nat)) :=
  mapE (fun d =>
    if d.raw.nestedType.length ≠ 0 then
      let children := (descs.filter (fun n => n.parent == some d.id)).map (fun n => n.id)
      if children.length ≠ d.raw.nestedType.length then
        .error (bs "internal error: nesting failure for " ++ d.raw.name)
      else .ok (d, children)
    else .ok (d, [])) descs

/-- generator.go buildNestedEnums, same scheme for nested enums. -/
def buildNestedEnums (descs : List FlatDesc) (enums : List FlatEnum) :
    Except Str (List (FlatDesc × List FlatEnum)) :=
  mapE (fun d =>
    if d.raw.enumType.length ≠ 0 then
      let children := enums.filter (fun e => e.parent == some d.id)
      if children.length ≠ d.raw.enumType.length then
        .error (bs "internal error: enum nesting failure for " ++ d.raw.name)
      else .ok (d, children)
    else .ok (d, [])) descs

/-! The wrapped type graph used by emission.  The Go code stores parent
pointers and rebuilds child lists (buildNestedDescriptors attaches, in flat
pre-order, exactly the wrappers whose parent pointer names the message, and
wrapThisDescriptor inserted those children in declaration order directly
after their parent), so the attached structure is the declaration tree.  We
wrap it as a tree directly, carrying the derived identity the Go wrappers
cache: typename (TypeName), the comment path, and parent-is-nil. -/

def natStr (n : Nat) : Str := bs (toString n)

/-- dottedSlice of helper.go: join name components with dots. -/
def dottedSlice (elem : List Str) : Str := List.intercalate (bs ".") elem

/-- A wrapped EnumDescriptor: raw record plus derived identity. -/
structure EnumT where
  raw : EnumProto
  parentNone : Bool
  typename : List Str
  path : Str

deriving DecidableEq

/-- newEnumDescriptor plus EnumDescriptor.TypeName: path 5,i at top level,
parentPath,4,i nested; typename is the parent chain plus the enum name. -/
def wrapEnumT (e : EnumProto) (parentNone : Bool) (ptn : List Str) (ppath : Str)
    (idx : Nat) : EnumT :=
  { raw := e
    parentNone := parentNone
    typename := if parentNone then [e.name] else ptn ++ [e.name]
    path := if parentNone then bs "5," ++ natStr idx else ppath ++ bs ",4," ++ natStr idx }

/-- A wrapped Descriptor: raw fields plus derived identity and wrapped
children (nested enums and nested messages in declaration order). -/
inductive MsgT where
  | mk (name : Str) (fields : List FieldProto) (enums : List EnumT)
       (nested : List MsgT) (mapEntry : Bool) (deprecated : Bool)
       (parentNone : Bool) (typename : List Str) (path : Str)

def MsgT.name : MsgT → Str
  | .mk n _ _ _ _ _ _ _ _ => n

def MsgT.fields : MsgT → List FieldProto
  | .mk _ f _ _ _ _ _ _ _ => f

def MsgT.enums : MsgT → List EnumT
  | .mk _ _ e _ _ _ _ _ _ => e

def MsgT.nested : MsgT → List MsgT
  | .mk _ _ _ ns _ _ _ _ _ => ns

def MsgT.mapEntry : MsgT → Bool
  | .mk _ _ _ _ me _ _ _ _ => me

def MsgT.deprecated : MsgT → Bool
  | .mk _ _ _ _ _ d _ _ _ => d

def MsgT.parentNone : MsgT → Bool
  | .mk _ _ _ _ _ _ pn _ _ => pn

def MsgT.typename : MsgT → List Str
  | .mk _ _ _ _ _ _ _ tn _ => tn

def MsgT.path : MsgT → Str
  | .mk _ _ _ _ _ _ _ _ p => p

/-- Wrap the enums declared directly inside a message, with indices. -/
def wrapEnumTs (es : List EnumProto) (ptn : List Str) (ppath : Str) (idx : Nat) :
    List EnumT :=
  match es with
  | [] => []
  | e :: rest => wrapEnumT e false ptn ppath idx :: wrapEnumTs rest ptn ppath (idx + 1)

mutual
/-- newDescriptor plus TypeName plus the attachment of nested children:
path 4,i at top level, parentPath,3,i nested; typename is the parent chain
plus this name; children are wrapped in declaration order with indices. -/
def wrapMsgT (m : MessageProto) (parentNone : Bool) (ptn : List Str) (ppath : Str)
    (idx : Nat) : MsgT :=
  match m with
  | .mk n f nested enums me dep =>
    let tn := ptn ++ [n]
    let pth := if parentNone then bs "4," ++ natStr idx
               else ppath ++ bs ",3," ++ natStr idx
    .mk n f (wrapEnumTs enums tn pth 0) (wrapMsgTs nested tn pth 0) me dep parentNone tn pth

def wrapMsgTs (ms : List MessageProto) (ptn : List Str) (ppath : Str) (idx : Nat) :
    List MsgT :=
  match ms with
  | [] => []
  | m :: rest => wrapMsgT m false ptn ppath idx :: wrapMsgTs rest ptn ppath (idx + 1)
end

mutual
/-- Flat pre-order list of all wrapped messages of a file (file.desc). -/
def flattenMsg (m : MsgT) : List MsgT :=
  match m with
  | .mk n f e ns me dep pn tn pth =>
    .mk n f e ns me dep pn tn pth :: flattenMsgs ns

def flattenMsgs (ms : List MsgT) : List MsgT :=
  match ms with
  | [] => []
  | m :: rest => flattenMsg m ++ flattenMsgs rest
end

/-- ASCII fragment of Go strings.ToLower applied to a byte string. -/
def toLowerStr (s : Str) : Str := s.map asciiToLower

/-- The wrapped file (generator.go FileDescriptor as built by WrapTypes):
raw identity, the Java import path derived from the value-object package,
wrapped top-level messages and enums, and the comment map. -/
structure FileT where
  name : Str
  pkg : Str
  options : Option FileOptions
  importPath : Str
  msgs : List MsgT
  topEnums : List EnumT
  comments : List (Str × CommentLoc)

/-- extractComments: keep locations with a leading comment, keyed by the
comma-joined path; Go map overwrite becomes prepend with first-match lookup. -/
def extractComments (locs : List SourceLoc) : List (Str × CommentLoc) :=
  locs.foldl (fun m loc =>
    match loc.leading with
    | none => m
    | some lc => (List.intercalate (bs ",") (loc.path.map natStr), ⟨lc, loc.trailing⟩) :: m) []

/-- The per-file part of WrapTypes: import path joined from the value-object
package and the lower-cased proto package, then descriptors, enums and
comments wrapped. -/
def wrapFile (vopkg : Str) (f : FileProto) : FileT :=
  { name := f.name
    pkg := f.pkg
    options := f.options
    importPath := vopkg ++ bs "." ++ toLowerStr f.pkg
    msgs := wrapMsgTs' f.messageType
    topEnums := wrapTopEnums f.enumType 0
    comments := extractComments f.sourceInfo }
where
  wrapMsgTs' (ms : List MessageProto) : List MsgT :=
    (ms.enum.map (fun p => wrapMsgT p.2 true [] [] p.1))
  wrapTopEnums : List EnumProto → Nat → List EnumT
    | [], _ => []
    | e :: rest, i => wrapEnumT e true [] [] i :: wrapTopEnums rest (i + 1)

/-- All wrapped messages of a file in flat pre-order (file.desc). -/
def FileT.allDescs (f : FileT) : List MsgT := flattenMsgs f.msgs

/-- All wrapped enums of a file (file.enum): top level first, then the enums
of each message in flat pre-order. -/
def FileT.allEnums (f : FileT) : List EnumT :=
  f.topEnums ++ (f.allDescs).flatMap (fun d => d.enums)

/-! The type resolver: BuildTypeNameMap of generator.go and the resolving
lookup of template.go getFieldTypeName. -/

/-- The per-file identity an Object exposes (common.File() accessors used by
emission: raw package, java import path, file name, java options). -/
structure FileInfo where
  name : Str
  pkg : Str
  importPath : Str
  hasOptions : Bool
  javaPackage : Str
  javaOuterClassname : Str

deriving DecidableEq

def FileT.info (f : FileT) : FileInfo :=
  { name := f.name
    pkg := f.pkg
    importPath := f.importPath
    hasOptions := f.options.isSome
    javaPackage := ((f.options.map FileOptions.javaPackage).getD [])
    javaOuterClassname := ((f.options.map FileOptions.javaOuterClassname).getD []) }

/-- generator.go Object: an enum or message wrapper reachable from the type
map; emission reads its TypeName and its defining file's identity. -/
inductive Object where
  | enumO (typename : List Str) (fi : FileInfo)
  | msgO (typename : List Str) (fi : FileInfo)

deriving DecidableEq

def Object.typeName : Object → List Str
  | .enumO tn _ => tn
  | .msgO tn _ => tn

def Object.fileInfo : Object → FileInfo
  | .enumO _ fi => fi
  | .msgO _ fi => fi

/-- The insertion sequence of BuildTypeNameMap: for every file in order, its
enums then its messages, keyed by the leading-dot fully qualified name. -/
def typeEntries (files : List FileT) : List (Str × Object) :=
  files.flatMap (fun f =>
    let dp0 := bs "." ++ f.pkg
    let dottedPkg := if dp0 ≠ bs "." then dp0 ++ bs "." else dp0
    (f.allEnums).map (fun e => (dottedPkg ++ dottedSlice e.typename,
        Object.enumO e.typename f.info))
      ++ (f.allDescs).map (fun d => (dottedPkg ++ dottedSlice d.typename,
        Object.msgO d.typename f.info)))

/-- generator.go BuildTypeNameMap: insert every enum and message of every
file into one Go map (association list with overwrite-by-prepend). -/
def BuildTypeNameMap (files : List FileT) : List (Str × Object) :=
  files.foldl (fun m f =>
    let dp0 := bs "." ++ f.pkg
    let dottedPkg := if dp0 ≠ bs "." then dp0 ++ bs "." else dp0
    let m1 := (f.allEnums).foldl (fun m e =>
      (dottedPkg ++ dottedSlice e.typename, Object.enumO e.typename f.info) :: m) m
    (f.allDescs).foldl (fun m d =>
      (dottedPkg ++ dottedSlice d.typename, Object.msgO d.typename f.info) :: m) m1) []

/-- The rendering .package.name.TypeName to TypeName that template.go does
in getFieldTypeName and again in extractImports: strip the leading dot, trim
the defining package as a prefix, then strip the following dot. -/
def relativeTypeName (obj : Object) (field : FieldProto) : Str :=
  let t1 := field.typeName.drop 1
  let t2 := if obj.fileInfo.pkg.isPrefixOf t1 then t1.drop obj.fileInfo.pkg.length else t1
  t2.drop 1

/-- template.go getFieldTypeName: resolve the field's type name through the
map (fatal when absent), then render it relative to the defining file. -/
def getFieldTypeName (tm : List (Str × Object)) (field : FieldProto) : Except Str Str :=
  match lookupStr tm field.typeName with
  | none => .error (bs "unable to find object with type named," ++ field.typeName)
  | some obj => .ok (relativeTypeName obj field)

/-! The per-construct generators (template.go, bean converter emission). -/

/-- Everything the construct generators read besides the current file: the
two output packages, the type-name map, and the formatted wall-clock string
that populateHeaderComment obtains from time.Now().Format. -/
structure Ctx where
  vopkg : Str
  cvtpkg : Str
  typeMap : List (Str × Object)
  now : Str

deriving instance DecidableEq for Except

/-- template.go deprecationComment. -/
def deprecationComment : Str := bs "// Deprecated: Do not use."

/-- bean.go getFullPathComponents: the value-object package components (the
file argument is unused in the source) followed by the type name components. -/
def getFullPathComponents (vopkg : Str) (typeName : List Str) : List Str :=
  (if vopkg ≠ [] then List.splitOn 46 vopkg else []) ++ typeName

/-- Go path.Join for the well-formed component lists the generator builds:
join nonempty components with slashes (path.Clean is the identity on them). -/
def pathJoin (components : List Str) : Str :=
  List.intercalate (bs "/") (components.filter (fun c => c ≠ []))

/-- bean.go descriptorPackagePath and enumPackagePath share this shape: all
path components except the last, joined with dots. -/
def packagePathOf (vopkg : Str) (typename : List Str) : Str :=
  dottedSlice ((getFullPathComponents vopkg typename).dropLast)

/-- Byte-lexicographic string order, the order of Go sort.Strings. -/
def strLe : Str → Str → Bool
  | [], _ => true
  | _ :: _, [] => false
  | a :: s, b :: t => if a < b then true else if b < a then false else strLe s t

def insertSorted (x : Str) : List Str → List Str
  | [] => [x]
  | y :: rest => if strLe x y then x :: y :: rest else y :: insertSorted x rest

/-- Sorting the key set of a Go map before iterating it, as the source does
with sort.Strings; insertion sort gives the same sorted result. -/
def sortStrs (l : List Str) : List Str := l.foldr insertSorted []

/-- Insertion into a Go map used only as a key set: keep the first position,
adding unseen keys at the end. -/
def insertKey (l : List Str) (k : Str) : List Str :=
  if l.contains k then l else l ++ [k]

/-- Go strings.Contains on byte strings. -/
def containsStr : Str → Str → Bool
  | s, sub =>
    if sub.isPrefixOf s then true
    else match s with
      | [] => false
      | _ :: t => containsStr t sub

/-- ASCII fragment of Go strings.Title: letters that begin a word (previous
byte neither letter, digit nor underscore) are upper-cased. -/
def asciiTitleGo : Bool → Str → Str
  | _, [] => []
  | ws, c :: rest =>
    (if ws && isASCIILower c then c - 32 else c)
      :: asciiTitleGo (!(isASCIIDigit c || isASCIILower c || isASCIIUpper c || c == 95)) rest

def asciiTitle (s : Str) : Str := asciiTitleGo true s

/-- helper.go isRepeated. -/
def isRepeated (f : FieldProto) : Bool := f.label == some .repeatedL

/-- helper.go javaFieldName. -/
def javaFieldName (f : FieldProto) : Str := CamelCase f.name

/-- helper.go javaType: the rendered Java type of a scalar field, List-boxed
when repeated; empty for the types the switch does not cover. -/
def javaType (f : FieldProto) : Str :=
  let rep := isRepeated f
  match f.type with
  | some .doubleT => if rep then bs "List<Double>" else bs "double"
  | some .floatT => if rep then bs "List<Float>" else bs "float"
  | some .int64T | some .uint64T | some .sfixed64T | some .sint64T | some .fixed64T =>
      if rep then bs "List<Long>" else bs "long"
  | some .int32T | some .uint32T | some .fixed32T | some .sfixed32T | some .sint32T =>
      if rep then bs "List<Integer>" else bs "int"
  | some .boolT => if rep then bs "List<Boolean>" else bs "boolean"
  | some .stringT => if rep then bs "List<String>" else bs "String"
  | some .bytesT => bs "byte[]"
  | _ => []

/-- The member test of populateEnum's default scan: the lower-cased member
name contains default, unknow (sic) or invalid. -/
def defaultish (v : EnumValueProto) : Bool :=
  let low := toLowerStr v.name
  containsStr low (bs "default") || containsStr low (bs "unknow")
    || containsStr low (bs "invalid")

/-- The default-member scan at the top of populateEnum: stop at the first
member whose lower-cased name contains default, unknow or invalid (keeping
its name, no synthesized member); otherwise fold the running value threshold
down and synthesize a member named Unknown. -/
def enumDefaultScan : List EnumValueProto → Int → Bool × Str × Int
  | [], dv => (true, bs "Unknown", dv)
  | v :: rest, dv =>
    if defaultish v then
      (false, v.name, dv)
    else
      enumDefaultScan rest (if v.number ≤ dv then v.number - 1 else dv)

/-- The name populateEnum uses in the default case of the generated
forNumber switch. -/
def enumDefaultName (e : EnumProto) : Str := (enumDefaultScan e.value (-1)).2.1

/-- template.go populateHeaderComment: the generated-code banner with the
formatted generation time on its own comment line. -/
def populateHeaderComment (now : Str) (f : FileT) (g : GenState) : GenState :=
  let g := g.P []
  let g := g.P [.s (bs "// Code generated by "), .s GeneratorName, .s (bs ". DO NOT EDIT.")]
  let g := g.P [.s (bs "// "), .s now]
  let g := g.P [.s (bs "//")]
  let g := g.P [.s (bs "//     "), .s f.name]
  let g := g.P [.s (bs "//")]
  let g := if ((f.options.map FileOptions.deprecated).getD false) then
      g.P [.s deprecationComment] else g
  let g := g.P []
  g.P []

/-- The per-value loop of populateEnum: comments, then NAME(number) with a
comma, or a semicolon on the last declared value. -/
def populateEnumValues (cm : List (Str × CommentLoc)) (epath : Str) (total : Nat) :
    List EnumValueProto → Nat → GenState → GenState
  | [], _, g => g
  | v :: rest, i, g =>
    let etorPath := epath ++ bs ",2," ++ natStr i
    let g := (g.PrintComments cm etorPath).1
    let tails := match tailingComments cm etorPath with
      | none => []
      | some t => bs " " ++ t
    let ender := if i = total - 1 then bs ");" else bs "),"
    let g := g.P [.s v.name, .s (bs "("), .i v.number, .s ender, .s tails]
    populateEnumValues cm epath total rest (i + 1) g

/-- The case lines of the generated forNumber switch. -/
def forNumberCases (vals : List EnumValueProto) (g : GenState) : GenState :=
  vals.foldl (fun g v =>
    g.P [.s (bs "case "), .i v.number, .s (bs ": return "), .s v.name, .s (bs ";")]) g

/-- The opening part of template.go populateEnum: package line and file
header for top-level enums, the deprecation line, leading comments and the
enum class line. -/
def populateEnumHead (vopkg now : Str) (f : FileT) (e : EnumT) (g : GenState) : GenState :=
  let g := if e.parentNone then
      let g := g.P [.s (bs "package "), .s (packagePathOf vopkg e.typename), .s (bs ";")]
      populateHeaderComment now f g
    else g
  let g := if e.raw.deprecated then g.P [.s deprecationComment] else g
  let g := (g.PrintComments f.comments e.path).1
  g.P [.s (bs "public enum "), .s e.raw.name, .s (bs " \x7b")]

/-- The member list of populateEnum: the synthesized default member when the
scan found no default-looking name, then the declared values. -/
def populateEnumMembers (cm : List (Str × CommentLoc)) (e : EnumT)
    (scan : Bool × Str × Int) (g : GenState) : GenState :=
  let g := g.P []
  let g := g.In
  let g := if scan.1 then g.P [.s scan.2.1, .s (bs "("), .i scan.2.2, .s (bs "),")] else g
  populateEnumValues cm e.path e.raw.value.length e.raw.value 0 g

/-- The fixed members of populateEnum: the code field, the constructor and
the deprecated valueOf delegate. -/
def populateEnumBoiler (e : EnumT) (g : GenState) : GenState :=
  let g := g.P []
  let g := g.P [.s (bs "public int code;")]
  let g := g.P []
  let g := g.P [.s e.raw.name, .s (bs "(int code) \x7b this.code = code; \x7d")]
  let g := g.P []
  let g := g.P [.s (bs "/**")]
  let g := g.P [.s (bs " * @deprecated Use \x7b@link #forNumber(int)\x7d instead.")]
  let g := g.P [.s (bs " */")]
  let g := g.P [.s (bs "@java.lang.Deprecated")]
  let g := g.P [.s (bs "public static "), .s e.raw.name, .s (bs " valueOf(int value) \x7b")]
  let g := g.In
  let g := g.P [.s (bs "return forNumber(value);")]
  let g := g.Out
  let g := g.P [.s (bs "\x7d")]
  g.P []

/-- The forNumber method of populateEnum, whose default case returns the
scanned default member name. -/
def populateEnumForNumber (e : EnumT) (scan : Bool × Str × Int) (g : GenState) : GenState :=
  let g := g.P [.s (bs "public static "), .s e.raw.name, .s (bs " forNumber(int value) \x7b")]
  let g := g.In
  let g := g.P [.s (bs "switch (value) \x7b")]
  let g := g.In
  let g := forNumberCases e.raw.value g
  let g := g.P [.s (bs "default: return "), .s scan.2.1, .s (bs ";")]
  let g := g.Out
  let g := g.P [.s (bs "\x7d")]
  let g := g.Out
  g.P [.s (bs "\x7d")]

/-- template.go populateEnum, the parts in source order with the closing
class brace. -/
def populateEnum (vopkg now : Str) (f : FileT) (e : EnumT) (g : GenState) : GenState :=
  let scan := enumDefaultScan e.raw.value (-1)
  let g := populateEnumHead vopkg now f e g
  let g := populateEnumMembers f.comments e scan g
  let g := populateEnumBoiler e g
  let g := populateEnumForNumber e scan g
  let g := g.Out
  g.P [.s (bs "\x7d")]

/-- template.go populateField: rendered type (resolved through the type map
for enum and message fields, List-boxed when repeated; javaType otherwise,
fatal when unknown), leading comments, then the public field declaration
line with any trailing comment. -/
def fieldTypeDesc (tm : List (Str × Object)) (field : FieldProto) : Except Str Str :=
  match field.type with
  | some .enumT | some .messageT =>
    (match getFieldTypeName tm field with
     | .error e => .error e
     | .ok tn => .ok (if isRepeated field then bs "List<" ++ tn ++ bs ">" else tn))
  | _ =>
    let td := javaType field
    if td = [] then Except.error (bs "unknown type for" ++ field.name) else .ok td

def populateField (tm : List (Str × Object)) (f : FileT) (mpath : Str) (field : FieldProto)
    (index : Nat) (g : GenState) : Except Str GenState :=
  match fieldTypeDesc tm field with
  | .error e => .error e
  | .ok typeDesc =>
    let ftorPath := mpath ++ bs ",2," ++ natStr index
    let g := (g.PrintComments f.comments ftorPath).1
    let tail := match tailingComments f.comments ftorPath with
      | none => []
      | some t => bs " " ++ t
    .ok (g.P [.s (bs "public "), .s typeDesc, .s (bs " "), .s (javaFieldName field),
      .s (bs ";"), .s tail])

def populateFields (tm : List (Str × Object)) (f : FileT) (mpath : Str) :
    List FieldProto → Nat → GenState → Except Str GenState
  | [], _, g => .ok g
  | fl :: rest, i, g =>
    match populateField tm f mpath fl i g with
    | .error e => .error e
    | .ok g => populateFields tm f mpath rest (i + 1) g

/-- The field scan of template.go extractImports: bytes fields need Arrays,
repeated enum and message fields need List, and enum and message fields add
the defining file's import path joined with the root of the rendered type
name; unresolvable type names are fatal. -/
def extractImportsFields (tm : List (Str × Object)) :
    List FieldProto → List Str × List Str → Except Str (List Str × List Str)
  | [], acc => .ok acc
  | field :: rest, acc =>
    match field.type with
    | some .bytesT =>
        extractImportsFields tm rest (insertKey acc.1 (bs "java.util.Arrays"), acc.2)
    | some .enumT | some .messageT =>
        let acc := if isRepeated field then (insertKey acc.1 (bs "java.util.List"), acc.2)
                   else acc
        match lookupStr tm field.typeName with
        | none => .error (bs "unable to find object with type named," ++ field.typeName)
        | some obj =>
          let typeName := relativeTypeName obj field
          let importPkg := ((List.splitOn 46 typeName).head?).getD typeName
          let fullJavaImportPath := obj.fileInfo.importPath ++ bs "." ++ importPkg
          extractImportsFields tm rest (acc.1, insertKey acc.2 fullJavaImportPath)
    | _ => extractImportsFields tm rest acc

mutual
/-- template.go extractImports: recurse into nested descriptors first, then
add Serializable when the message has fields, then scan this message's
fields.  The two accumulators are the sysImp and usrImp key sets. -/
def extractImports (tm : List (Str × Object)) (msg : MsgT) (acc : List Str × List Str) :
    Except Str (List Str × List Str) :=
  match msg with
  | .mk _ fields _ nested _ _ _ _ _ =>
    match extractImportsList tm nested acc with
    | .error e => .error e
    | .ok acc =>
      let acc := if fields.length ≠ 0 then
          (insertKey acc.1 (bs "java.io.Serializable"), acc.2)
        else acc
      extractImportsFields tm fields acc

def extractImportsList (tm : List (Str × Object)) (ms : List MsgT) (acc : List Str × List Str) :
    Except Str (List Str × List Str) :=
  match ms with
  | [] => .ok acc
  | m :: rest =>
    match extractImports tm m acc with
    | .error e => .error e
    | .ok acc => extractImportsList tm rest acc
end

/-- One line of the toString concatenation built by populateToString's
strings.Builder for field number i. -/
def toStringLine (field : FieldProto) (i : Nat) : Str :=
  bs "\"" ++ (if i ≠ 0 then bs ", " else []) ++ javaFieldName field ++ bs "="
    ++ (if field.type == some .stringT then bs "'" else [])
    ++ bs "\" + "
    ++ (if field.type == some .bytesT then
          bs "Arrays.toString(" ++ javaFieldName field ++ bs ")"
        else javaFieldName field)
    ++ (if field.type == some .stringT then bs " + '\\''" else [])
    ++ bs " + "

def toStringFieldLines : List FieldProto → Nat → GenState → GenState
  | [], _, g => g
  | field :: rest, i, g => toStringFieldLines rest (i + 1) (g.P [.s (toStringLine field i)])

/-- template.go populateToString: the Override header, one concatenation
line per field, and the closing brace line. -/
def populateToString (name : Str) (fields : List FieldProto) (g : GenState) : GenState :=
  let g := g.P [.s (bs "@Override")]
  let g := g.P [.s (bs "public String toString() \x7b")]
  let g := g.In
  let g := g.P [.s (bs "return \""), .s name, .s (bs "\x7b\" +")]
  let g := g.In
  let g := g.In
  let g := toStringFieldLines fields 0 g
  let g := g.P [.s (bs "\"\x7d\";")]
  let g := g.Out
  let g := g.Out
  let g := g.Out
  g.P [.s (bs "\x7d")]

/-- The import emission of a top-level populateDescriptor: sorted user
imports outside this package (with a blank line when any was emitted), then
all sorted system imports with a blank line. -/
def populateDescriptorImports (tm : List (Str × Object)) (thisPackage : Str)
    (msg : MsgT) (g : GenState) : Except Str GenState :=
  match extractImports tm msg ([], []) with
  | .error e => .error e
  | .ok imps =>
    let g :=
      if imps.2 ≠ [] then
        let usrImpKeys := sortStrs imps.2
        let toEmit := usrImpKeys.filter (fun p => !(thisPackage.isPrefixOf p))
        let g := toEmit.foldl (fun g p => g.P [.s (bs "import "), .s p, .s (bs ";")]) g
        if toEmit ≠ [] then g.P [] else g
      else g
    .ok (if imps.1 ≠ [] then
        let sysImpKeys := sortStrs imps.1
        let g := sysImpKeys.foldl (fun g p => g.P [.s (bs "import "), .s p, .s (bs ";")]) g
        g.P []
      else g)

/-- The top-level-only opening of populateDescriptor: package line, file
header comment and import blocks. -/
def populateDescriptorHead (vopkg : Str) (tm : List (Str × Object)) (now : Str)
    (f : FileT) (msg : MsgT) (g : GenState) : Except Str GenState :=
  let thisPackage := packagePathOf vopkg msg.typename
  let g := g.P [.s (bs "package "), .s thisPackage, .s (bs ";")]
  let g := populateHeaderComment now f g
  populateDescriptorImports tm thisPackage msg g

/-- The class line of populateDescriptor: deprecation, leading comments and
the public class header (static for nested messages, Serializable when the
message has fields), indenting for the body. -/
def populateDescriptorClassLine (cm : List (Str × CommentLoc)) (msg : MsgT)
    (g : GenState) : GenState :=
  let g := if msg.deprecated then g.P [.s deprecationComment] else g
  let g := (g.PrintComments cm msg.path).1
  let serializable := if msg.fields.length = 0 then [] else bs " implements Serializable"
  let staticable := if msg.parentNone then [] else bs " static"
  (g.P [.s (bs "public"), .s staticable, .s (bs " final "), .s msg.name, .s serializable,
    .s (bs " \x7b")]).In

/-- The closing of populateDescriptor: a blank line, the toString method
when the message has fields, and the closing brace. -/
def populateDescriptorTail (name : Str) (fields : List FieldProto) (g : GenState) :
    GenState :=
  let g := g.P []
  let g := if fields.length > 0 then populateToString name fields g else g
  (g.Out).P [.s (bs "\x7d")]

/-- The nested-enum loop of populateDescriptor: each nested enum preceded by
a blank line. -/
def populateNestedEnums (vopkg now : Str) (f : FileT) : List EnumT → GenState → GenState
  | [], g => g
  | ne :: rest, g => populateNestedEnums vopkg now f rest (populateEnum vopkg now f ne (g.P []))

mutual
/-- template.go populateDescriptor: the top-level head when the message has
no parent, the class line, the fields, the nested enums and nested messages
(each preceded by a blank line), and the tail. -/
def populateDescriptor (vopkg : Str) (tm : List (Str × Object)) (now : Str)
    (f : FileT) (msg : MsgT) (g : GenState) : Except Str GenState :=
  match msg with
  | .mk n fields enums nested me dep pn tn pth =>
    match (if pn then
        populateDescriptorHead vopkg tm now f (.mk n fields enums nested me dep pn tn pth) g
      else .ok g) with
    | .error e => .error e
    | .ok g =>
      let g := populateDescriptorClassLine f.comments (.mk n fields enums nested me dep pn tn pth) g
      match populateFields tm f pth fields 0 g with
      | .error e => .error e
      | .ok g =>
        let g := populateNestedEnums vopkg now f enums g
        match populateNestedDescs vopkg tm now f nested g with
        | .error e => .error e
        | .ok g => .ok (populateDescriptorTail n fields g)

def populateNestedDescs (vopkg : Str) (tm : List (Str × Object)) (now : Str)
    (f : FileT) (ms : List MsgT) (g : GenState) : Except Str GenState :=
  match ms with
  | [] => .ok g
  | m :: rest =>
    match populateDescriptor vopkg tm now f m (g.P []) with
    | .error e => .error e
    | .ok g => populateNestedDescs vopkg tm now f rest g
end

/-- The enum half of generator.go generateBeans: iterate the file's enums,
skip nested ones, and for each top-level enum reset the buffer, emit the
enum and collect the artifact under its package path with a java extension. -/
def beansEnums (vopkg now : Str) (f : FileT) :
    List EnumT → GenState → GenState × List (Str × Str)
  | [], g => (g, [])
  | e :: rest, g =>
    if !e.parentNone then beansEnums vopkg now f rest g
    else
      let g1 := populateEnum vopkg now f e { g with buffer := [] }
      let name := pathJoin ((getFullPathComponents vopkg e.typename).dropLast
        ++ [e.raw.name ++ bs ".java"])
      let (g2, arts) := beansEnums vopkg now f rest g1
      (g2, (name, g1.buffer) :: arts)

/-- The descriptor half of generateBeans, same scheme for top-level
messages. -/
def beansDescs (vopkg : Str) (tm : List (Str × Object)) (now : Str) (f : FileT) :
    List MsgT → GenState → Except Str (GenState × List (Str × Str))
  | [], g => .ok (g, [])
  | d :: rest, g =>
    if !d.parentNone then beansDescs vopkg tm now f rest g
    else
      match populateDescriptor vopkg tm now f d { g with buffer := [] } with
      | .error e => .error e
      | .ok g1 =>
        let name := pathJoin ((getFullPathComponents vopkg d.typename).dropLast
          ++ [d.name ++ bs ".java"])
        match beansDescs vopkg tm now f rest g1 with
        | .error e => .error e
        | .ok (g2, arts) => .ok (g2, (name, g1.buffer) :: arts)

/-- generator.go generateBeans: one artifact per top-level enum, then one
per top-level message. -/
def generateBeans (vopkg : Str) (tm : List (Str × Object)) (now : Str) (f : FileT)
    (g : GenState) : Except Str (GenState × List (Str × Str)) :=
  let (g, enumArts) := beansEnums vopkg now f f.allEnums g
  match beansDescs vopkg tm now f f.allDescs g with
  | .error e => .error e
  | .ok (g, descArts) => .ok (g, enumArts ++ descArts)

/-! Converter emission (the Pb2JavaBean pass). -/

/-- bean.go javaPackageOption on the file identity: (import path, outer
class name, present) derived from the java_package option. -/
def javaPackageOption (fi : FileInfo) : Str × Str × Bool :=
  if fi.javaPackage = [] then ([], [], false)
  else (fi.javaPackage, fi.javaOuterClassname, true)

/-- helper.go javaConverterName: outer class name from the options when
present, else the last package component; a pb prefix (case-insensitive) is
stripped, the remainder Title-cased, with the Pb2JavaBean suffix. -/
def javaConverterNameInfo (fi : FileInfo) : Str :=
  let cls := if fi.hasOptions && fi.javaOuterClassname ≠ [] then fi.javaOuterClassname
             else ((List.splitOn 46 fi.pkg).getLast?).getD []
  let cls := if (bs "pb").isPrefixOf (toLowerStr cls) then cls.drop 2 else cls
  asciiTitle cls ++ bs "Pb2JavaBean"

def javaConverterName (f : FileT) : Str := javaConverterNameInfo f.info

/-- The field scan of extractConverterImports: the loop breaks at the first
repeated field after adding the list imports; non-repeated enum fields pull
in the import of the enum's root type, resolved through the type map
(fatal when absent). -/
def convImportsFields (vopkg : Str) (tm : List (Str × Object)) :
    List FieldProto → List Str × List Str → Except Str (List Str × List Str)
  | [], acc => .ok acc
  | field :: rest, acc =>
    if isRepeated field then
      .ok (insertKey (insertKey acc.1 (bs "java.util.ArrayList")) (bs "java.util.List"),
        acc.2)
    else
      match field.type with
      | some .enumT =>
        match lookupStr tm field.typeName with
        | none => .error (bs "cannot find object to type," ++ field.typeName)
        | some obj =>
          let rootTypeName := obj.typeName.take 1
          let objPath := getFullPathComponents vopkg rootTypeName
          convImportsFields vopkg tm rest (acc.1, insertKey acc.2 (dottedSlice objPath))
      | _ => convImportsFields vopkg tm rest acc

def convImportsDescs (vopkg : Str) (tm : List (Str × Object)) :
    List MsgT → List Str × List Str → Except Str (List Str × List Str)
  | [], acc => .ok acc
  | d :: rest, acc =>
    let p := getFullPathComponents vopkg (d.typename.take 1)
    let acc := (acc.1, insertKey acc.2 (dottedSlice p))
    match convImportsFields vopkg tm d.fields acc with
    | .error e => .error e
    | .ok acc => convImportsDescs vopkg tm rest acc

/-- bean.go extractConverterImports: the protobuf exception import always,
the outer class of the java_package option when options are present, then
per flat descriptor its root value-object import and the field scan. -/
def extractConverterImports (vopkg : Str) (tm : List (Str × Object)) (f : FileT) :
    Except Str (List Str × List Str) :=
  let usr := [bs "com.google.protobuf.InvalidProtocolBufferException"]
  let usr := if f.options.isSome then
      insertKey usr (f.info.javaPackage ++ bs "." ++ f.info.javaOuterClassname)
    else usr
  convImportsDescs vopkg tm f.allDescs ([], usr)

/-- The per-field conversion statements of populateDescriptorConverter. -/
def convFieldOne (tm : List (Str × Object)) (thisConverter : Str) (varName : Str)
    (field : FieldProto) (g : GenState) : Except Str GenState :=
  let lc := CamelCase field.name
  let uc := asciiTitle (CamelCase field.name)
  (match field.type with
      | some .enumT =>
        match lookupStr tm field.typeName with
        | none => Except.error (bs "unable to find object for type," ++ field.typeName)
        | some obj =>
          let enumClass := dottedSlice obj.typeName
          if !isRepeated field then
            .ok (g.P [.s (bs "entity."), .s lc, .s (bs " = "), .s enumClass,
              .s (bs ".forNumber("), .s varName, .s (bs ".get"), .s (asciiTitle lc),
              .s (bs "Value());")])
          else
            let g := g.P [.s (bs "entity."), .s lc, .s (bs " = new ArrayList<>();")]
            let g := g.P [.s (bs "for (int value : "), .s varName, .s (bs ".get"), .s uc,
              .s (bs "ValueList()) \x7b")]
            let g := g.In
            let g := g.P [.s (bs "entity."), .s lc, .s (bs ".add("), .s enumClass,
              .s (bs ".forNumber(value);")]
            let g := g.Out
            .ok (g.P [.s (bs "\x7d")])
      | some .messageT =>
        match lookupStr tm field.typeName with
        | none => Except.error (bs "unable to find object for type," ++ field.typeName)
        | some obj =>
          let fieldConverter0 := javaConverterNameInfo obj.fileInfo
          let fieldConverter := if fieldConverter0 == thisConverter then []
                                else fieldConverter0 ++ bs "."
          let fieldConvertMethod := obj.typeName.flatten
          let byteSource := varName ++ bs ".get" ++ uc ++ bs "().toByteArray()"
          if !isRepeated field then
            let g := g.P [.s (bs "if ("), .s varName, .s (bs ".get"), .s uc,
              .s (bs "() != null) \x7b")]
            let g := g.In
            let g := g.P [.s (bs "entity."), .s lc, .s (bs " = "), .s fieldConverter,
              .s (bs "to"), .s fieldConvertMethod, .s (bs "("), .s byteSource, .s (bs ");")]
            let g := g.Out
            .ok (g.P [.s (bs "\x7d")])
          else
            let fieldPbClassName := dottedSlice (obj.fileInfo.javaOuterClassname :: obj.typeName)
            let g := g.P [.s (bs "entity."), .s lc, .s (bs " = new ArrayList<>();")]
            let g := g.P [.s (bs "if ("), .s varName, .s (bs ".get"), .s uc,
              .s (bs "Count() > 0) \x7b")]
            let g := g.In
            let g := g.P [.s (bs "for ("), .s fieldPbClassName, .s (bs " element : "),
              .s varName, .s (bs ".get"), .s uc, .s (bs "List()) \x7b")]
            let g := g.In
            let g := g.P [.s (bs "entity."), .s lc, .s (bs ".add("), .s fieldConverter,
              .s (bs "to"), .s fieldConvertMethod, .s (bs "(element.toByteArray());")]
            let g := g.Out
            let g := g.P [.s (bs "\x7d")]
            let g := g.Out
            .ok (g.P [.s (bs "\x7d")])
      | _ =>
        .ok (g.P [.s (bs "entity."), .s lc, .s (bs " = "), .s varName, .s (bs ".get"),
          .s uc, .s (bs "();")]) : Except Str GenState)

/-- The per-field loop of populateDescriptorConverter. -/
def convFields (tm : List (Str × Object)) (thisConverter : Str) (varName : Str) :
    List FieldProto → GenState → Except Str GenState
  | [], g => .ok g
  | field :: rest, g =>
    match convFieldOne tm thisConverter varName field g with
    | .error e => .error e
    | .ok g => convFields tm thisConverter varName rest g

/-- bean.go populateDescriptorConverter: the static toX([]byte) routine that
parses the wire bytes through the protobuf outer class (fatal when the file
has no java_package option), assigns each field (enums through forNumber,
messages through nested converter calls, repeated fields through ArrayList
loops), and catches InvalidProtocolBufferException returning null. -/
def populateDescriptorConverter (tm : List (Str × Object)) (f : FileT) (desc : MsgT)
    (thisConverter : Str) (g : GenState) : Except Str GenState :=
  let typeName := dottedSlice desc.typename
  let funcName := desc.typename.flatten
  let pOpt := javaPackageOption f.info
  if !pOpt.2.2 then
    Except.error (bs "cannot find java output class for," ++ desc.name
      ++ bs " in," ++ f.name)
  else
    let pbClass := pOpt.2.1
    let varName := CamelCase desc.typename.flatten
    let g := g.P [.s (bs "public static "), .s typeName, .s (bs " to"), .s funcName,
      .s (bs "([]byte data) \x7b")]
    let g := g.In
    let g := g.P [.s (bs "try \x7b")]
    let g := g.In
    let g := g.P [.s pbClass, .s (bs "."), .s typeName, .s (bs " "), .s varName,
      .s (bs " = "), .s pbClass, .s (bs "."), .s typeName, .s (bs ".parseFrom(data);")]
    let g := g.P [.s typeName, .s (bs " entity = new "), .s typeName, .s (bs "();")]
    match convFields tm thisConverter varName desc.fields g with
    | .error e => .error e
    | .ok g =>
      let g := g.P []
      let g := g.P [.s (bs "return entity;")]
      let g := g.Out
      let g := g.P [.s (bs "\x7d catch (InvalidProtocolBufferException e) \x7b")]
      let g := g.In
      let g := g.P [.s (bs "e.printStackTrace();")]
      let g := g.P [.s (bs "// SocketLog.e(e);")]
      let g := g.Out
      let g := g.P [.s (bs "\x7d")]
      let g := g.P []
      let g := g.P [.s (bs "return null;")]
      let g := g.Out
      .ok (g.P [.s (bs "\x7d")])

/-- The body loop of populatePbToBeanConverter over the flat descriptor
list: each iteration converts the children of the descriptor (each preceded
by a blank line), emits one more blank line, and converts the descriptor
itself when it is top level. -/
def convBodyNested (tm : List (Str × Object)) (f : FileT) (thisConverter : Str) :
    List MsgT → GenState → Except Str GenState
  | [], g => .ok g
  | m :: rest, g =>
    match populateDescriptorConverter tm f m thisConverter (g.P []) with
    | .error e => .error e
    | .ok g => convBodyNested tm f thisConverter rest g

def convBody (tm : List (Str × Object)) (f : FileT) (thisConverter : Str) :
    List MsgT → GenState → Except Str GenState
  | [], g => .ok g
  | d :: rest, g =>
    match convBodyNested tm f thisConverter d.nested g with
    | .error e => .error e
    | .ok g =>
      let g := g.P []
      match (if d.parentNone then populateDescriptorConverter tm f d thisConverter g
             else .ok g) with
      | .error e => .error e
      | .ok g => convBody tm f thisConverter rest g

/-- bean.go populatePbToBeanConverter: package line, header comment, sorted
user then system import blocks, the converter class header, the body over
the flat descriptor list, and the closing brace with a final blank line. -/
def populatePbToBeanConverter (vopkg cvtpkg : Str) (tm : List (Str × Object)) (now : Str)
    (f : FileT) (clsName : Str) (g : GenState) : Except Str GenState :=
  let g := g.P [.s (bs "package "), .s cvtpkg, .s (bs ";")]
  let g := populateHeaderComment now f g
  match extractConverterImports vopkg tm f with
  | .error e => .error e
  | .ok imps =>
    let usrKeys := sortStrs imps.2
    let g := usrKeys.foldl (fun g p => g.P [.s (bs "import "), .s p, .s (bs ";")]) g
    let g := if usrKeys.length > 0 then g.P [] else g
    let sysKeys := sortStrs imps.1
    let g := sysKeys.foldl (fun g p => g.P [.s (bs "import "), .s p, .s (bs ";")]) g
    let g := if sysKeys.length > 0 then g.P [] else g
    let g := g.P [.s (bs "public static final "), .s clsName, .s (bs " \x7b")]
    let g := g.In
    match convBody tm f clsName f.allDescs g with
    | .error e => .error e
    | .ok g =>
      let g := g.Out
      let g := g.P [.s (bs "\x7d")]
      .ok (g.P [])

/-- generator.go generateConverters: reset the buffer, emit the converter
class and collect it as one artifact under the converter package path. -/
def generateConverters (vopkg cvtpkg : Str) (tm : List (Str × Object)) (now : Str)
    (f : FileT) (g : GenState) : Except Str (GenState × (Str × Str)) :=
  let javaClsName := javaConverterName f
  let pathComp := List.splitOn 46 cvtpkg ++ [javaClsName ++ bs ".java"]
  match populatePbToBeanConverter vopkg cvtpkg tm now f javaClsName { g with buffer := [] } with
  | .error e => .error e
  | .ok g1 => .ok (g1, (pathJoin pathComp, g1.buffer))

/-! The whole pipeline. -/

/-- generator.go GenerateAllFiles: for every wrapped file, writeOutput is
set to whether the file is in the generate set (by position, matching the
pointer identity of the Go genFileMap); files outside it are skipped, files
inside it contribute their bean artifacts and converter artifact in order. -/
def generateAllLoop (vopkg cvtpkg : Str) (tm : List (Str × Object)) (now : Str) :
    List (Nat × FileT) → List Nat → GenState → Except Str (GenState × List (Str × Str))
  | [], _, g => .ok (g, [])
  | (i, f) :: rest, genIdxs, g =>
    if !genIdxs.contains i then generateAllLoop vopkg cvtpkg tm now rest genIdxs g
    else
      let g := { g with writeOutput := true }
      match generateBeans vopkg tm now f g with
      | .error e => .error e
      | .ok (g, beans) =>
        match generateConverters vopkg cvtpkg tm now f g with
        | .error e => .error e
        | .ok (g, conv) =>
          match generateAllLoop vopkg cvtpkg tm now rest genIdxs g with
          | .error e => .error e
          | .ok (g, arts) => .ok (g, beans ++ [conv] ++ arts)

def GenerateAllFiles (ctx : Ctx) (files : List FileT) (genIdxs : List Nat) (g : GenState) :
    Except Str (GenState × List (Str × Str)) :=
  generateAllLoop ctx.vopkg ctx.cvtpkg ctx.typeMap ctx.now files.enum genIdxs g

/-- The genFiles resolution of WrapTypes: each requested filename resolves
to the last file of that name (allFilesByName is a Go map keyed by name);
a missing name is fatal. -/
def resolveGenFiles (protoFiles : List FileProto) (names : List Str) :
    Except Str (List Nat) :=
  mapE (fun name =>
    match (protoFiles.enum.filter (fun p => p.2.name == name)).getLast? with
    | none => .error (bs "could not find file named" ++ name)
    | some p => .ok p.1) names

/-- The nested-count checks WrapTypes performs per file through the flat
wrap (buildNestedDescriptors, buildNestedEnums). -/
def wrapChecks (protoFiles : List FileProto) : Except Str Unit :=
  match mapE (fun f =>
    let descs := wrapDescriptors f
    match buildNestedDescriptors descs with
    | .error e => .error e
    | .ok _ =>
      match buildNestedEnums descs (wrapEnumDescriptors f descs) with
      | .error e => .error e
      | .ok _ => .ok ()) protoFiles with
  | .error e => .error e
  | .ok _ => .ok ()

/-- The full generation pipeline of cmd/protoc-gen-bean: configuration,
wrapping with the nested-count checks, the generate set, the type-name map,
and the emission of all artifacts.  The formatted clock string read by
populateHeaderComment is an explicit input. -/
def runPipeline (req : Request) (now : Str) : Except Str (List (Str × Str)) :=
  match CommandLineParameters req.parameter with
  | .error e => .error e
  | .ok cfg =>
    match wrapChecks req.protoFile with
    | .error e => .error e
    | .ok _ =>
      let files := req.protoFile.map (wrapFile cfg.valueObjectPackage)
      match resolveGenFiles req.protoFile req.fileToGenerate with
      | .error e => .error e
      | .ok genIdxs =>
        let tm := BuildTypeNameMap files
        let ctx : Ctx := ⟨cfg.valueObjectPackage, cfg.converterPackage, tm, now⟩
        match GenerateAllFiles ctx files genIdxs ⟨[], [], false⟩ with
        | .error e => .error e
        | .ok (_, arts) => .ok arts

/-- A two-member enum with no default-looking name, nested inside a message
M, as wrapped by WrapTypes (first declared value RED). -/
def colorEnum : EnumT :=
  ⟨⟨bs "Color", [⟨bs "RED", 0⟩, ⟨bs "GREEN", 1⟩], false⟩,
   false, [bs "M", bs "Color"], bs "4,0,4,0"⟩

/-- A wrapped file carrying colorEnum, with no comments. -/
def demoFileC4 : FileT :=
  ⟨bs "demo.proto", bs "demo", none, bs "com.x", [], [], []⟩

/-- The synthetic nested entry message that descriptor.proto lowers a
map<string, int32> field to (the map_entry option is set on it). -/
def mapEntryMsg : MessageProto :=
  .mk (bs "FooEntry")
    [⟨bs "key", 1, some .optionalL, some .stringT, []⟩,
     ⟨bs "value", 2, some .optionalL, some .int32T, []⟩]
    [] [] true false

/-- The lowered map field itself: a repeated message field referencing the
synthetic entry type by its fully qualified name. -/
def mapFooField : FieldProto :=
  ⟨bs "foo", 1, some .repeatedL, some .messageT, bs ".demo.M.FooEntry"⟩

/-- A file whose message M declares one map<string, int32> field foo,
exactly as protoc lowers such a message. -/
def demoProtoC2 : FileProto :=
  ⟨bs "demo.proto", bs "demo",
   [.mk (bs "M") [mapFooField] [mapEntryMsg] [] false false],
   [], none, []⟩

def demoFileC2 : FileT := wrapFile (bs "com.x") demoProtoC2

def demoTmC2 : List (Str × Object) := BuildTypeNameMap [demoFileC2]

/-- The object the type map resolves the entry reference to. -/
def fooEntryObj : Object := .msgO [bs "M", bs "FooEntry"] demoFileC2.info

/-- The indent Out leaves, as a function of the indent before it. -/
def outInd (i : Str) : Str :=
  if i.length > 0 then i.drop DefaultIndent.length else i

/-- The block PrintComments appends when writeOutput is on. -/
def pcOut (cm : List (Str × CommentLoc)) (path : Str) (i : Str) : Str :=
  match makeComments cm path with
  | some c => i ++ renderAtoms [.s c] ++ [10]
  | none => []

/-- A buffer-valued function of the formatted clock string that embeds the
clock between two fixed blocks: the shape of every generated artifact. -/
def NowAffine (h : Str → Str) : Prop :=
  ∃ pre post, ∀ s, h s = pre ++ s ++ post

/-- Substituting a clock string into split artifact metadata. -/
def insNow (now : Str) (m : Str × Str × Str) : Str × Str :=
  (m.1, m.2.1 ++ now ++ m.2.2)

/-- A one-file request: an empty proto file and the mandatory value-object
package parameter. -/
def demoReqC1 : Request :=
  ⟨[⟨bs "empty.proto", bs "demo", [], [], none, []⟩], [bs "empty.proto"], bs "vopkg=com.x"⟩

mutual
/-- Every wrapped child of a message tree carries a parent back-reference
(parentNone false), recursively, and so do its nested enums; WrapTypes only
builds trees with this property. -/
def childrenNested : MsgT → Bool
  | .mk _ _ enums nested _ _ _ _ _ =>
    enums.all (fun e => !e.parentNone) && childrenNestedList nested

def childrenNestedList : List MsgT → Bool
  | [] => true
  | m :: rest => !m.parentNone && childrenNested m && childrenNestedList rest
end

/-! Facts about the ASCII case bit used by CamelCase. -/

theorem xorSpace_xorSpace (c : Nat) : xorSpace (xorSpace c) = c := by
  simp [xorSpace, Nat.xor_assoc]

theorem xorSpace_of_lower {c : Nat} (h : isASCIILower c = true) :
    isASCIIUpper (xorSpace c) = true ∧ isASCIILower (xorSpace c) = false ∧
    xorSpace c ≠ 95 ∧ isASCIIDigit (xorSpace c) = false := by
  simp only [isASCIILower, Bool.and_eq_true, decide_eq_true_eq] at h
  obtain ⟨h1, h2⟩ := h
  interval_cases c <;> decide

theorem xorSpace_of_upper {c : Nat} (h : isASCIIUpper c = true) :
    isASCIILower (xorSpace c) = true := by
  simp only [isASCIIUpper, Bool.and_eq_true, decide_eq_true_eq] at h
  obtain ⟨h1, h2⟩ := h
  interval_cases c <;> decide

theorem lower_not_upper {c : Nat} (h : isASCIILower c = true) :
    isASCIIUpper c = false := by
  simp only [isASCIILower, Bool.and_eq_true, decide_eq_true_eq] at h
  simp only [isASCIIUpper, Bool.and_eq_false_iff, decide_eq_false_iff_not]
  omega

theorem digit_not_lower {c : Nat} (h : isASCIIDigit c = true) :
    isASCIILower c = false := by
  simp only [isASCIIDigit, Bool.and_eq_true, decide_eq_true_eq] at h
  simp only [isASCIILower, Bool.and_eq_false_iff, decide_eq_false_iff_not]
  omega

/-- Unfolding equation for camelLoop on a cons cell, with Bool conditions. -/
theorem camelLoop_cons (c : Nat) (rest : Str) :
    camelLoop (c :: rest) =
      if c = 95 && nextIsLower rest then camelLoop rest
      else if isASCIIDigit c then c :: camelLoop rest
      else (if isASCIILower c then xorSpace c else c)
        :: (rest.takeWhile isASCIILower ++ camelLoop (rest.dropWhile isASCIILower)) := by
  rw [camelLoop]

/-! The word loop never produces an empty output from a nonempty input, and
the first byte of its output is never a lower-case letter. -/

theorem camelLoop_ne_nil {s : Str} (h : s ≠ []) : camelLoop s ≠ [] := by
  induction s using camelLoop.induct with
  | case1 => exact absurd rfl h
  | case2 c rest hskip ih =>
    rw [camelLoop_cons, if_pos hskip]
    apply ih
    cases rest with
    | nil => simp [nextIsLower] at hskip
    | cons d r => exact List.cons_ne_nil d r
  | case3 c rest hskip hdig ih =>
    rw [camelLoop_cons, if_neg (by simp_all), if_pos hdig]
    exact List.cons_ne_nil _ _
  | case4 c rest hskip hdig ih =>
    rw [camelLoop_cons, if_neg (by simp_all), if_neg (by simp_all)]
    exact List.cons_ne_nil _ _

theorem nextIsLower_camelLoop (s : Str) : nextIsLower (camelLoop s) = false := by
  induction s using camelLoop.induct with
  | case1 => simp [camelLoop, nextIsLower]
  | case2 c rest hskip ih =>
    rw [camelLoop_cons, if_pos hskip]; exact ih
  | case3 c rest hskip hdig ih =>
    rw [camelLoop_cons, if_neg (by simp_all), if_pos hdig]
    simpa [nextIsLower] using digit_not_lower hdig
  | case4 c rest hskip hdig ih =>
    rw [camelLoop_cons, if_neg (by simp_all), if_neg (by simp_all)]
    simp only [nextIsLower]
    by_cases hl : isASCIILower c = true
    · simp only [hl, if_pos]
      exact (xorSpace_of_lower hl).2.1
    · simp only [Bool.not_eq_true] at hl
      simp [hl]

theorem lower_ok {a : Nat} (h : isASCIILower a = true) :
    a ≠ 95 ∧ isASCIIDigit a = false := by
  simp only [isASCIILower, Bool.and_eq_true, decide_eq_true_eq] at h
  refine ⟨by omega, ?_⟩
  simp only [isASCIIDigit, Bool.and_eq_false_iff, decide_eq_false_iff_not]
  omega

theorem nextIsLower_eq_false_iff {l : Str} :
    nextIsLower l = false ↔ ∀ y ∈ l.head?, isASCIILower y = false := by
  cases l <;> simp [nextIsLower]

theorem chain'_cons_run {tw : Str} (htw : ∀ a ∈ tw, isASCIILower a = true) :
    ∀ x, x ≠ 95 ∧ isASCIIDigit x = false → List.Chain' okPair (x :: tw) := by
  induction tw with
  | nil => intro x _; simp
  | cons a tw' ih =>
    intro x hx
    refine List.Chain'.cons (fun _ => hx) ?_
    exact ih (fun b hb => htw b (List.mem_cons_of_mem a hb)) a
      (lower_ok (htw a (List.mem_cons_self a tw')))

theorem chain'_camelLoop (s : Str) : List.Chain' okPair (camelLoop s) := by
  induction s using camelLoop.induct with
  | case1 => simp [camelLoop]
  | case2 c rest hskip ih => rw [camelLoop_cons, if_pos hskip]; exact ih
  | case3 c rest hskip hdig ih =>
    rw [camelLoop_cons, if_neg (by simp_all), if_pos hdig]
    refine List.chain'_cons'.mpr ⟨?_, ih⟩
    intro y hy hl
    exact absurd hl (by
      have := nextIsLower_eq_false_iff.mp (nextIsLower_camelLoop rest) y hy
      simp [this])
  | case4 c rest hskip hdig ih =>
    rw [camelLoop_cons, if_neg (by simp_all), if_neg (by simp_all)]
    rw [show ((if isASCIILower c then xorSpace c else c)
        :: (rest.takeWhile isASCIILower ++ camelLoop (rest.dropWhile isASCIILower)))
      = ((if isASCIILower c then xorSpace c else c) :: rest.takeWhile isASCIILower)
        ++ camelLoop (rest.dropWhile isASCIILower) from rfl]
    refine List.chain'_append.mpr ⟨?_, ih, ?_⟩
    · -- the head word is a chain
      by_cases htw : rest.takeWhile isASCIILower = []
      · simp [htw]
      · have hnl : nextIsLower rest = true := by
          cases rest with
          | nil => simp [List.takeWhile] at htw
          | cons d r =>
            simp only [nextIsLower]
            by_contra hd
            simp only [Bool.not_eq_true] at hd
            simp [List.takeWhile_cons, hd] at htw
        refine chain'_cons_run (fun a ha => List.mem_takeWhile_imp ha) _ ?_
        by_cases hl : isASCIILower c = true
        · simp only [hl, if_pos]
          exact ⟨(xorSpace_of_lower hl).2.2.1, (xorSpace_of_lower hl).2.2.2⟩
        · simp only [Bool.not_eq_true] at hl
          simp only [hl, Bool.false_eq_true, if_false]
          refine ⟨fun h95 => ?_, by simpa using hdig⟩
          rw [h95] at hskip
          simp [hnl] at hskip
    · intro x hx y hy
      intro hl
      exact absurd hl (by
        have := nextIsLower_eq_false_iff.mp
          (nextIsLower_camelLoop (rest.dropWhile isASCIILower)) y hy
        simp [this])

theorem upperHead_of_not_lower {l : Str} (h : nextIsLower l = false) :
    upperHead l = l := by
  cases l with
  | nil => rfl
  | cons c r =>
    simp only [nextIsLower] at h
    simp [upperHead, h]

theorem camelLoop_of_chain {s : Str} (hc : List.Chain' okPair s) :
    camelLoop s = upperHead s := by
  induction s using camelLoop.induct with
  | case1 => simp [camelLoop, upperHead]
  | case2 c rest hskip ih =>
    -- an underscore directly followed by a lower-case letter violates okPair
    exfalso
    simp only [Bool.and_eq_true, decide_eq_true_eq] at hskip
    obtain ⟨h95, hnl⟩ := hskip
    cases rest with
    | nil => simp [nextIsLower] at hnl
    | cons d r =>
      simp only [nextIsLower] at hnl
      have hp : okPair c d := (List.chain'_cons.mp hc).1
      exact (hp hnl).1 h95
  | case3 c rest hskip hdig ih =>
    rw [camelLoop_cons, if_neg (by simp_all), if_pos hdig]
    have hrest : List.Chain' okPair rest := (List.chain'_cons'.mp hc).2
    have hhd : nextIsLower rest = false := by
      rw [nextIsLower_eq_false_iff]
      intro y hy
      by_contra hl
      simp only [Bool.not_eq_false] at hl
      have hpair := (List.chain'_cons'.mp hc).1 y hy hl
      exact absurd hdig (by simp [hpair.2])
    rw [ih hrest, upperHead_of_not_lower hhd, upperHead]
    simp [digit_not_lower hdig]
  | case4 c rest hskip hdig ih =>
    rw [camelLoop_cons, if_neg (by simp_all), if_neg (by simp_all)]
    have hrest : List.Chain' okPair rest := (List.chain'_cons'.mp hc).2
    have hdr : List.Chain' okPair (rest.dropWhile isASCIILower) :=
      hrest.suffix (List.dropWhile_suffix _)
    have hhd : nextIsLower (rest.dropWhile isASCIILower) = false := by
      rw [nextIsLower_eq_false_iff]
      intro y hy
      cases hdw : rest.dropWhile isASCIILower with
      | nil => simp [hdw] at hy
      | cons d r =>
        have := List.head_dropWhile_not isASCIILower rest (by simp [hdw])
        simp only [hdw] at hy this
        simp only [List.head?_cons, Option.mem_some_iff] at hy
        simpa [← hy] using this
    rw [ih hdr, upperHead_of_not_lower hhd, List.takeWhile_append_dropWhile]
    rfl

theorem chain'_lowerHead {t : Str} (hc : List.Chain' okPair t) :
    List.Chain' okPair (lowerHead t) := by
  cases t with
  | nil => simp [lowerHead]
  | cons h r =>
    simp only [lowerHead]
    refine List.chain'_cons'.mpr ⟨?_, (List.chain'_cons'.mp hc).2⟩
    intro y hy hl
    have hp := (List.chain'_cons'.mp hc).1 y hy hl
    by_cases hu : isASCIIUpper h = true
    · simp only [hu, if_pos]
      exact lower_ok (xorSpace_of_upper hu)
    · simp only [Bool.not_eq_true] at hu
      simpa [hu] using hp

/-- C8. Name-mangling idempotence: CamelCase applied twice equals CamelCase
applied once; mangling an already-mangled identifier is a no-op.  This
confirms the round-trip naming property of helper.go CamelCase. -/
theorem camelCase_idempotent (s : Str) : CamelCase (CamelCase s) = CamelCase s := by
  by_cases hs : s = []
  · simp [hs, CamelCase]
  · have ht : camelLoop s ≠ [] := camelLoop_ne_nil hs
    have hcc : CamelCase s = lowerHead (camelLoop s) := by
      simp [CamelCase, hs]
    obtain ⟨h, r, hhr⟩ : ∃ h r, camelLoop s = h :: r := by
      cases hl : camelLoop s with
      | nil => exact absurd hl ht
      | cons a b => exact ⟨a, b, rfl⟩
    have hnotlow : isASCIILower h = false := by
      have := nextIsLower_camelLoop s
      rw [hhr] at this
      simpa [nextIsLower] using this
    have hchain : List.Chain' okPair (lowerHead (camelLoop s)) :=
      chain'_lowerHead (chain'_camelLoop s)
    rw [hcc, hhr]
    have hne : lowerHead (h :: r) ≠ [] := by simp [lowerHead]
    rw [CamelCase, if_neg hne]
    rw [hhr] at hchain
    rw [camelLoop_of_chain hchain]
    simp only [lowerHead, upperHead]
    by_cases hu : isASCIIUpper h = true
    · have hlow := xorSpace_of_upper hu
      simp [hu, hlow, xorSpace_xorSpace]
    · simp only [Bool.not_eq_true] at hu
      simp [hu, hnotlow]

/-- C5. Byte-default unescaping: the literal backslash-101 backslash-x42 C
decodes to the three bytes A, B, C; named escapes, two-digit hex escapes and
one-to-three-digit octal escapes are reversed, and malformed escape
sequences (unknown escape letter, short or non-hex digits, out-of-range
octal) pass through unmodified rather than being rejected. -/
theorem unescape_reverses_c_escapes :
    unescape (bs "\\101\\x42C") = bs "ABC" ∧
    (∀ rest : Str, unescape (92 :: 110 :: rest) = 10 :: unescape rest) ∧
    (∀ rest : Str, unescape (92 :: 120 :: 52 :: 50 :: rest) = 66 :: unescape rest) ∧
    (∀ rest : Str, unescape (92 :: 49 :: 48 :: 49 :: rest) = 65 :: unescape rest) ∧
    unescape (bs "\\z") = bs "\\z" ∧
    unescape (bs "\\x4") = bs "\\x4" ∧
    unescape (bs "\\xZZ") = bs "\\xZZ" ∧
    unescape (bs "\\400") = bs "\\400" := by
  refine ⟨?_, ?_, ?_, ?_, ?_, ?_, ?_, ?_⟩
  · simp [unescape, escapeChars, hexDigitVal, isOctalDigit, octalVal, bs]
  · intro rest
    rw [unescape.eq_def]
    simp [escapeChars]
  · intro rest
    rw [unescape.eq_def]
    simp [escapeChars, hexDigitVal]
  · intro rest
    rw [unescape.eq_def]
    simp [escapeChars, isOctalDigit, octalVal, List.takeWhile_cons]
  · simp [unescape, escapeChars, hexDigitVal, isOctalDigit, octalVal, bs]
  · simp [unescape, escapeChars, hexDigitVal, isOctalDigit, octalVal, bs]
  · simp [unescape, escapeChars, hexDigitVal, isOctalDigit, octalVal, bs]
  · simp [unescape, escapeChars, hexDigitVal, isOctalDigit, octalVal, bs]

/-- C9. Output-suppression frame property: when writeOutput is false, P (with
any arguments) returns the state entirely unchanged (in particular the
output buffer is byte-for-byte unchanged) and PrintComments returns false
and leaves the state unchanged, so files outside the requested generate set
contribute no emitted text. -/
theorem writeOutput_off_is_frame (g : GenState) (atoms : List Atom)
    (cm : List (Str × CommentLoc)) (path : Str) (h : g.writeOutput = false) :
    g.P atoms = g ∧ g.PrintComments cm path = (g, false) := by
  constructor
  · simp [GenState.P, h]
  · simp [GenState.PrintComments, h]

/-- Witness for C9 at a concrete state with a nonempty buffer. -/
theorem writeOutput_off_is_frame_witness :
    (GenState.P ⟨bs "abc", bs "    ", false⟩ [.s (bs "text"), .i 7] = ⟨bs "abc", bs "    ", false⟩) ∧
    (GenState.PrintComments ⟨bs "abc", bs "    ", false⟩ [(bs "4,0", ⟨bs "c", none⟩)] (bs "4,0")
      = (⟨bs "abc", bs "    ", false⟩, false)) :=
  writeOutput_off_is_frame ⟨bs "abc", bs "    ", false⟩ [.s (bs "text"), .i 7]
    [(bs "4,0", ⟨bs "c", none⟩)] (bs "4,0") rfl

theorem indentOf_succ (d : Nat) : indentOf (d + 1) = DefaultIndent ++ indentOf d := by
  simp [indentOf, List.replicate_succ]

theorem indentOf_append (d : Nat) : indentOf d ++ DefaultIndent = indentOf (d + 1) := by
  induction d with
  | zero => simp [indentOf]
  | succ n ih =>
    rw [indentOf_succ, indentOf_succ, List.append_assoc, ih]

theorem In_indentOf (g : GenState) (d : Nat) (h : g.indent = indentOf d) :
    g.In.indent = indentOf (d + 1) := by
  simp [GenState.In, h, indentOf_append]

theorem Out_indentOf_succ (g : GenState) (d : Nat) (h : g.indent = indentOf (d + 1)) :
    g.Out.indent = indentOf d := by
  simp only [GenState.Out, h, indentOf_succ]
  rw [if_pos (by simp [DefaultIndent, bs])]
  simp [List.drop_left]

theorem Out_indentOf_zero (g : GenState) (h : g.indent = indentOf 0) : g.Out = g := by
  simp only [indentOf, List.replicate_zero, List.flatten_nil] at h
  simp [GenState.Out, h]

theorem indentOf_length (d : Nat) : (indentOf d).length = 4 * d := by
  induction d with
  | zero => simp [indentOf]
  | succ n ih =>
    rw [indentOf_succ]
    simp only [List.length_append, ih]
    simp [DefaultIndent, bs]
    omega

/-- The guarded Go slice never panics on an indent of the invariant shape,
and agrees with Out there. -/
theorem outIndentGo_indentOf (d : Nat) :
    outIndentGo (indentOf d) = some (indentOf (d - 1)) := by
  cases d with
  | zero => simp [outIndentGo, indentOf]
  | succ n =>
    rw [outIndentGo]
    rw [if_neg (by simp [indentOf_length]), if_pos (by simp [indentOf_length, DefaultIndent, bs])]
    rw [indentOf_succ]
    simp [List.drop_left, DefaultIndent, bs]

theorem applyIndentOps_indentOf (g : GenState) (ops : List IndentOp) :
    ∀ d, g.indent = indentOf d →
      (applyIndentOps g ops).indent = indentOf (depthRun d ops) := by
  induction ops generalizing g with
  | nil => intro d h; simpa [applyIndentOps, depthRun]
  | cons op ops ih =>
    intro d h
    cases op with
    | inOp =>
      simp only [applyIndentOps, depthRun]
      exact ih g.In (d + 1) (In_indentOf g d h)
    | outOp =>
      simp only [applyIndentOps, depthRun]
      cases d with
      | zero =>
        refine ih g.Out 0 ?_
        rw [Out_indentOf_zero g h, h]
      | succ n =>
        exact ih g.Out n (Out_indentOf_succ g n h)

/-- C10. Indentation invariant: starting from an empty indent, after any
sequence of In and Out calls the indent is exactly DefaultIndent repeated d
times where d is the running depth (In increments, Out decrements with
saturation at zero); In on depth d yields depth d+1, Out on depth d+1 yields
depth d, Out on depth 0 is a complete no-op, and the guarded slice inside Out
is always in range on such states (it never panics). -/
theorem indent_invariant :
    (∀ (g : GenState) (ops : List IndentOp), g.indent = [] →
      (applyIndentOps g ops).indent = indentOf (depthRun 0 ops)) ∧
    (∀ (g : GenState) (d : Nat), g.indent = indentOf d → g.In.indent = indentOf (d + 1)) ∧
    (∀ (g : GenState) (d : Nat), g.indent = indentOf (d + 1) → g.Out.indent = indentOf d) ∧
    (∀ g : GenState, g.indent = indentOf 0 → g.Out = g) ∧
    (∀ (g : GenState) (ops : List IndentOp), g.indent = [] →
      outIndentGo (applyIndentOps g ops).indent
        = some ((applyIndentOps g ops).Out.indent)) := by
  refine ⟨?_, In_indentOf, Out_indentOf_succ, Out_indentOf_zero, ?_⟩
  · intro g ops h
    exact applyIndentOps_indentOf g ops 0 (by simpa [indentOf] using h)
  · intro g ops h
    have hind := applyIndentOps_indentOf g ops 0 (by simpa [indentOf] using h)
    rw [hind, outIndentGo_indentOf]
    cases hd : depthRun 0 ops with
    | zero => rw [congrArg GenState.indent (Out_indentOf_zero _ (hd ▸ hind)), hind, hd]
    | succ n => rw [Out_indentOf_succ _ n (hd ▸ hind)]; simp

/-- Witness for C10 at a concrete operation sequence: In, In, Out, Out, Out
from the empty indent ends at depth zero with an in-range slice throughout. -/
theorem indent_invariant_witness :
    (applyIndentOps ⟨[], [], true⟩ [.inOp, .inOp, .outOp, .outOp, .outOp]).indent
      = indentOf (depthRun 0 [.inOp, .inOp, .outOp, .outOp, .outOp]) ∧
    (GenState.In ⟨[], indentOf 1, true⟩).indent = indentOf 2 ∧
    (GenState.Out ⟨[], indentOf 1, true⟩).indent = indentOf 0 ∧
    GenState.Out ⟨[], indentOf 0, true⟩ = ⟨[], indentOf 0, true⟩ ∧
    outIndentGo (applyIndentOps ⟨[], [], true⟩ [.outOp, .inOp]).indent
      = some ((applyIndentOps ⟨[], [], true⟩ [.outOp, .inOp]).Out.indent) :=
  ⟨indent_invariant.1 ⟨[], [], true⟩ _ rfl,
   indent_invariant.2.1 ⟨[], indentOf 1, true⟩ 1 rfl,
   indent_invariant.2.2.1 ⟨[], indentOf 1, true⟩ 0 rfl,
   indent_invariant.2.2.2.1 ⟨[], indentOf 0, true⟩ rfl,
   indent_invariant.2.2.2.2 ⟨[], [], true⟩ _ rfl⟩

theorem buildParamMap_eq_reverse (tokens : List Str) :
    buildParamMap tokens = (tokens.map parseParamToken).reverse := by
  suffices h : ∀ acc, tokens.foldl (fun m p => parseParamToken p :: m) acc
      = (tokens.map parseParamToken).reverse ++ acc by
    simpa using h []
  induction tokens with
  | nil => intro acc; simp [buildParamMap]
  | cons t ts ih =>
    intro acc
    simp only [List.foldl_cons, List.map_cons, List.reverse_cons, ih, List.append_assoc]
    simp

theorem lookup_buildParamMap (toks : List Str) (k : Str) :
    lookupStr (buildParamMap toks) k
      = ((toks.map parseParamToken).reverse.find? (fun p => p.1 == k)).map
          (fun p => p.2) := by
  rw [lookupStr, buildParamMap_eq_reverse]

/-- C7 counterexample: the parameter string vopkg=a,vopkg contains a vopkg
token whose value yields the non-empty package a, yet CommandLineParameters
fails fatally, because the Go Param map keeps only the last vopkg token and
that token carries an empty value. -/
theorem cmdline_params_counterexample :
    (∃ tok ∈ List.splitOn 44 (bs "vopkg=a,vopkg"),
      (parseParamToken tok).1 = bs "vopkg" ∧
      paramToJavaPackage (parseParamToken tok).2 ≠ []) ∧
    CommandLineParameters (bs "vopkg=a,vopkg")
      = .error (bs "invalid vo package, use --bean_out=vopkg=[package.of.vo], to set") := by
  constructor
  · refine ⟨bs "vopkg=a", by decide, by decide, by decide⟩
  · rfl

/-- C7 amended. Configuration parsing with last-token-wins: scanning the
comma-separated tokens from the last one backwards, the first vopkg binding
found is the effective one (so duplicate vopkg tokens are resolved in favor
of the last, not of any token that yields a non-empty package); parsing
fails fatally exactly when the effective vopkg value (lower-cased,
dot-trimmed) is empty or absent, and otherwise succeeds with the converter
package defaulting to the value-object package plus .converter whenever the
effective cvtpkg value is empty or absent. -/
theorem cmdline_params_last_token_wins (parameter : Str) :
    CommandLineParameters parameter =
      (let toks := List.splitOn 44 parameter
       let vo := (((toks.map parseParamToken).reverse.find?
          (fun p => p.1 == bs "vopkg")).map (fun p => paramToJavaPackage p.2)).getD []
       let cvt := (((toks.map parseParamToken).reverse.find?
          (fun p => p.1 == bs "cvtpkg")).map (fun p => paramToJavaPackage p.2)).getD []
       if vo = [] then
         .error (bs "invalid vo package, use --bean_out=vopkg=[package.of.vo], to set")
       else if cvt = [] then
         .ok ⟨vo, vo ++ bs ".converter"⟩
       else
         .ok ⟨vo, cvt⟩) := by
  rw [CommandLineParameters]
  simp only [lookup_buildParamMap]
  cases h1 : (List.splitOn 44 parameter |>.map parseParamToken).reverse.find?
      (fun p => p.1 == bs "vopkg") with
  | none =>
    cases h2 : (List.splitOn 44 parameter |>.map parseParamToken).reverse.find?
        (fun p => p.1 == bs "cvtpkg") <;> simp [h1, h2]
  | some pv =>
    cases h2 : (List.splitOn 44 parameter |>.map parseParamToken).reverse.find?
        (fun p => p.1 == bs "cvtpkg") <;> simp [h1, h2]

theorem mapE_ok_forall {α β : Type} (f : α → Except Str β) (l : List α)
    (res : List β) (h : mapE f l = .ok res) :
    ∀ b ∈ res, ∃ a ∈ l, f a = .ok b := by
  induction l generalizing res with
  | nil =>
    simp only [mapE, Except.ok.injEq] at h
    subst h
    simp
  | cons a l ih =>
    simp only [mapE] at h
    cases hfa : f a with
    | error e => rw [hfa] at h; exact absurd h (by simp)
    | ok b =>
      rw [hfa] at h
      cases hml : mapE f l with
      | error e => rw [hml] at h; exact absurd h (by simp)
      | ok bl =>
        rw [hml] at h
        simp only [Except.ok.injEq] at h
        subst h
        intro x hx
        rcases List.mem_cons.mp hx with hx | hx
        · exact ⟨a, List.mem_cons_self a l, hx ▸ hfa⟩
        · obtain ⟨a', ha', hfa'⟩ := ih bl hml x hx
          exact ⟨a', List.mem_cons_of_mem a ha', hfa'⟩

/-- C3. Nesting invariant: whenever the graph build (buildNestedDescriptors,
buildNestedEnums) completes without the fatal nesting-failure error, every
message wrapper has exactly as many attached nested children as its raw
descriptor declares nested types, and exactly as many attached enums as it
declares nested enums; a count mismatch always surfaces as the fatal error
(the concrete third conjunct shows a mismatching descriptor aborting). -/
theorem nesting_invariant :
    (∀ (descs : List FlatDesc) (res : List (FlatDesc × List Nat)),
      buildNestedDescriptors descs = .ok res →
      ∀ p ∈ res, p.2.length = p.1.raw.nestedType.length) ∧
    (∀ (descs : List FlatDesc) (enums : List FlatEnum)
        (res : List (FlatDesc × List FlatEnum)),
      buildNestedEnums descs enums = .ok res →
      ∀ p ∈ res, p.2.length = p.1.raw.enumType.length) ∧
    buildNestedDescriptors
        [⟨0, none, .mk (bs "A") [] [.mk (bs "B") [] [] [] false false] [] false false⟩]
      = .error (bs "internal error: nesting failure for " ++ bs "A") := by
  refine ⟨?_, ?_, rfl⟩
  · intro descs res h p hp
    obtain ⟨d, _, hd⟩ := mapE_ok_forall _ descs res h p hp
    by_cases hn : d.raw.nestedType.length = 0
    · rw [if_neg (by omega)] at hd
      cases hd
      simp [hn]
    · rw [if_pos (by omega)] at hd
      by_cases hc : ((descs.filter (fun n => n.parent == some d.id)).map
          (fun n => n.id)).length = d.raw.nestedType.length
      · rw [if_neg (by omega)] at hd
        cases hd
        simpa using hc
      · rw [if_pos (by omega)] at hd
        cases hd
  · intro descs enums res h p hp
    obtain ⟨d, _, hd⟩ := mapE_ok_forall _ descs res h p hp
    by_cases hn : d.raw.enumType.length = 0
    · rw [if_neg (by omega)] at hd
      cases hd
      simp [hn]
    · rw [if_pos (by omega)] at hd
      by_cases hc : (enums.filter (fun e => e.parent == some d.id)).length
          = d.raw.enumType.length
      · rw [if_neg (by omega)] at hd
        cases hd
        simpa using hc
      · rw [if_pos (by omega)] at hd
        cases hd

/-- Witness for C3: a consistent two-level wrap passes both checks with the
attached counts equal to the declared counts. -/
theorem nesting_invariant_witness :
    (∀ p ∈ [(FlatDesc.mk 0 none (.mk (bs "A") [] [.mk (bs "B") [] [] [] false false]
        [⟨bs "E", [⟨bs "X", 0⟩], false⟩] false false), [1]),
      (FlatDesc.mk 1 (some 0) (.mk (bs "B") [] [] [] false false), [])],
      p.2.length = p.1.raw.nestedType.length) ∧
    (∀ p ∈ [(FlatDesc.mk 0 none (.mk (bs "A") [] [.mk (bs "B") [] [] [] false false]
        [⟨bs "E", [⟨bs "X", 0⟩], false⟩] false false),
          [FlatEnum.mk (some 0) ⟨bs "E", [⟨bs "X", 0⟩], false⟩]),
      (FlatDesc.mk 1 (some 0) (.mk (bs "B") [] [] [] false false), [])],
      p.2.length = p.1.raw.enumType.length) := by
  constructor
  · exact nesting_invariant.1
      [⟨0, none, .mk (bs "A") [] [.mk (bs "B") [] [] [] false false]
          [⟨bs "E", [⟨bs "X", 0⟩], false⟩] false false⟩,
       ⟨1, some 0, .mk (bs "B") [] [] [] false false⟩] _ rfl
  · exact nesting_invariant.2.1
      [⟨0, none, .mk (bs "A") [] [.mk (bs "B") [] [] [] false false]
          [⟨bs "E", [⟨bs "X", 0⟩], false⟩] false false⟩,
       ⟨1, some 0, .mk (bs "B") [] [] [] false false⟩]
      [⟨some 0, ⟨bs "E", [⟨bs "X", 0⟩], false⟩⟩] _ rfl

theorem foldl_cons_eq_reverse {α β : Type} (g : α → β) (l : List α) (acc : List β) :
    l.foldl (fun m x => g x :: m) acc = (l.map g).reverse ++ acc := by
  induction l generalizing acc with
  | nil => simp
  | cons a l ih =>
    simp only [List.foldl_cons, List.map_cons, List.reverse_cons, ih, List.append_assoc]
    simp

theorem BuildTypeNameMap_eq_reverse (files : List FileT) :
    BuildTypeNameMap files = (typeEntries files).reverse := by
  suffices h : ∀ acc, files.foldl (fun m f =>
      let dp0 := bs "." ++ f.pkg
      let dottedPkg := if dp0 ≠ bs "." then dp0 ++ bs "." else dp0
      let m1 := (f.allEnums).foldl (fun m e =>
        (dottedPkg ++ dottedSlice e.typename, Object.enumO e.typename f.info) :: m) m
      (f.allDescs).foldl (fun m d =>
        (dottedPkg ++ dottedSlice d.typename, Object.msgO d.typename f.info) :: m) m1) acc
      = (typeEntries files).reverse ++ acc by
    rw [BuildTypeNameMap]
    simpa using h []
  induction files with
  | nil => intro acc; simp [typeEntries]
  | cons f fs ih =>
    intro acc
    simp only [List.foldl_cons, ih, typeEntries, List.flatMap_cons, List.reverse_append]
    rw [foldl_cons_eq_reverse, foldl_cons_eq_reverse]
    simp [typeEntries, List.append_assoc]

theorem lookup_BuildTypeNameMap (files : List FileT) (name : Str) :
    lookupStr (BuildTypeNameMap files) name
      = ((typeEntries files).reverse.find? (fun p => p.1 == name)).map (fun p => p.2) := by
  rw [lookupStr, BuildTypeNameMap_eq_reverse]

/-- C6 counterexample: two files of the same package p both declaring a
top-level message M insert the same fully qualified name .p.M twice; the
resulting map resolves .p.M to the object of the second (last-inserted)
file, not the first-inserted one, refuting first-insert-wins. -/
theorem type_map_counterexample :
    typeEntries
        [wrapFile (bs "vo") ⟨bs "a.proto", bs "p",
            [.mk (bs "M") [] [] [] false false], [], none, []⟩,
         wrapFile (bs "vo") ⟨bs "b.proto", bs "p",
            [.mk (bs "M") [] [] [] false false], [], none, []⟩]
      = [(bs ".p.M", .msgO [bs "M"]
            (wrapFile (bs "vo") ⟨bs "a.proto", bs "p",
              [.mk (bs "M") [] [] [] false false], [], none, []⟩).info),
         (bs ".p.M", .msgO [bs "M"]
            (wrapFile (bs "vo") ⟨bs "b.proto", bs "p",
              [.mk (bs "M") [] [] [] false false], [], none, []⟩).info)] ∧
    lookupStr (BuildTypeNameMap
        [wrapFile (bs "vo") ⟨bs "a.proto", bs "p",
            [.mk (bs "M") [] [] [] false false], [], none, []⟩,
         wrapFile (bs "vo") ⟨bs "b.proto", bs "p",
            [.mk (bs "M") [] [] [] false false], [], none, []⟩]) (bs ".p.M")
      = some (.msgO [bs "M"]
            (wrapFile (bs "vo") ⟨bs "b.proto", bs "p",
              [.mk (bs "M") [] [] [] false false], [], none, []⟩).info) ∧
    (Object.msgO [bs "M"]
        (wrapFile (bs "vo") ⟨bs "b.proto", bs "p",
          [.mk (bs "M") [] [] [] false false], [], none, []⟩).info)
      ≠ (Object.msgO [bs "M"]
        (wrapFile (bs "vo") ⟨bs "a.proto", bs "p",
          [.mk (bs "M") [] [] [] false false], [], none, []⟩).info) := by
  refine ⟨rfl, rfl, by decide⟩

/-- C6 amended. First-insert-wins fails: the type-name map follows Go map
overwrite semantics, so when the same fully qualified dotted name is
inserted more than once the map keeps the object from the LAST insertion
(a lookup scans the insertion sequence backwards); a resolving lookup of a
name never inserted is a fatal failure in getFieldTypeName. -/
theorem type_map_last_insert_wins :
    (∀ (files : List FileT) (name : Str),
      lookupStr (BuildTypeNameMap files) name
        = ((typeEntries files).reverse.find? (fun p => p.1 == name)).map (fun p => p.2)) ∧
    (∀ (tm : List (Str × Object)) (field : FieldProto),
      lookupStr tm field.typeName = none →
      getFieldTypeName tm field
        = .error (bs "unable to find object with type named," ++ field.typeName)) := by
  refine ⟨lookup_BuildTypeNameMap, ?_⟩
  intro tm field h
  simp [getFieldTypeName, h]

/-- Witness for C6 amended: a lookup of a never-inserted name is the fatal
resolution failure. -/
theorem type_map_last_insert_wins_witness :
    getFieldTypeName [] ⟨bs "f", 1, none, some .messageT, bs ".p.X"⟩
      = .error (bs "unable to find object with type named," ++ bs ".p.X") :=
  type_map_last_insert_wins.2 [] ⟨bs "f", 1, none, some .messageT, bs ".p.X"⟩ rfl

/-! Emission is append-only: every construct generator only extends the
output buffer.  These lemmas let us localize a line emitted in the middle of
a generator and carry it to the final artifact content. -/

theorem P_extends (g : GenState) (atoms : List Atom) : g.buffer <+: (g.P atoms).buffer := by
  rw [GenState.P]
  split
  · exact List.prefix_rfl
  · exact ⟨g.indent ++ renderAtoms atoms ++ [10], by simp⟩

theorem In_extends (g : GenState) : g.buffer <+: g.In.buffer := List.prefix_rfl

theorem Out_extends (g : GenState) : g.buffer <+: g.Out.buffer := by
  rw [GenState.Out]
  split <;> exact List.prefix_rfl

theorem PrintComments_extends (g : GenState) (cm : List (Str × CommentLoc)) (path : Str) :
    g.buffer <+: (g.PrintComments cm path).1.buffer := by
  rw [GenState.PrintComments]
  split
  · exact List.prefix_rfl
  · split
    · exact P_extends g _
    · exact List.prefix_rfl

theorem ite_extends {x : Str} (c : Prop) [Decidable c] {a b : GenState}
    (h1 : x <+: a.buffer) (h2 : x <+: b.buffer) : x <+: (if c then a else b).buffer := by
  split <;> assumption

theorem populateHeaderComment_extends (now : Str) (f : FileT) (g : GenState) :
    g.buffer <+: (populateHeaderComment now f g).buffer := by
  rw [populateHeaderComment]
  refine List.IsPrefix.trans ?_ (P_extends _ _)
  refine List.IsPrefix.trans ?_ (P_extends _ _)
  refine ite_extends _ (List.IsPrefix.trans ?_ (P_extends _ _)) ?_ <;>
  · repeat refine List.IsPrefix.trans ?_ (P_extends _ _)
    exact List.prefix_rfl

theorem populateEnumValues_extends (cm : List (Str × CommentLoc)) (epath : Str)
    (total : Nat) (vals : List EnumValueProto) (i : Nat) (g : GenState) :
    g.buffer <+: (populateEnumValues cm epath total vals i g).buffer := by
  induction vals generalizing i g with
  | nil => exact List.prefix_rfl
  | cons v rest ih =>
    rw [populateEnumValues]
    refine List.IsPrefix.trans ?_ (ih _ _)
    refine List.IsPrefix.trans (PrintComments_extends _ _ _) (P_extends _ _)

theorem foldl_P_extends {α : Type} (h : α → List Atom) (l : List α) (g : GenState) :
    g.buffer <+: (l.foldl (fun g v => g.P (h v)) g).buffer := by
  induction l generalizing g with
  | nil => exact List.prefix_rfl
  | cons v rest ih =>
    simp only [List.foldl_cons]
    exact List.IsPrefix.trans (P_extends _ _) (ih _)

theorem forNumberCases_extends (vals : List EnumValueProto) (g : GenState) :
    g.buffer <+: (forNumberCases vals g).buffer := by
  rw [forNumberCases]
  exact foldl_P_extends
    (fun v => [.s (bs "case "), .i v.number, .s (bs ": return "), .s v.name, .s (bs ";")])
    vals g

theorem Out_extends_of {x : Str} {g : GenState} (h : x <+: g.buffer) :
    x <+: g.Out.buffer := h.trans (Out_extends g)

theorem In_extends_of {x : Str} {g : GenState} (h : x <+: g.buffer) :
    x <+: g.In.buffer := h

theorem P_extends_of {x : Str} {g : GenState} (atoms : List Atom) (h : x <+: g.buffer) :
    x <+: (g.P atoms).buffer := h.trans (P_extends g atoms)

theorem populateEnumHead_extends (vopkg now : Str) (f : FileT) (e : EnumT) (g : GenState) :
    g.buffer <+: (populateEnumHead vopkg now f e g).buffer := by
  rw [populateEnumHead]
  refine P_extends_of _ ?_
  refine List.IsPrefix.trans ?_ (PrintComments_extends _ _ _)
  refine ite_extends _ (P_extends_of _ ?_) ?_ <;>
  · refine ite_extends _ ?_ List.prefix_rfl
    exact List.IsPrefix.trans (P_extends _ _) (populateHeaderComment_extends _ _ _)

theorem populateEnumMembers_extends (cm : List (Str × CommentLoc)) (e : EnumT)
    (scan : Bool × Str × Int) (g : GenState) :
    g.buffer <+: (populateEnumMembers cm e scan g).buffer := by
  rw [populateEnumMembers]
  refine List.IsPrefix.trans ?_ (populateEnumValues_extends _ _ _ _ _ _)
  refine ite_extends _ (P_extends_of _ ?_) ?_ <;> exact In_extends_of (P_extends _ _)

theorem populateEnumBoiler_extends (e : EnumT) (g : GenState) :
    g.buffer <+: (populateEnumBoiler e g).buffer := by
  rw [populateEnumBoiler]
  repeat
    first
    | exact List.prefix_rfl
    | refine P_extends_of _ ?_
    | refine Out_extends_of ?_
    | refine In_extends_of ?_

theorem populateEnumForNumber_extends (e : EnumT) (scan : Bool × Str × Int) (g : GenState) :
    g.buffer <+: (populateEnumForNumber e scan g).buffer := by
  rw [populateEnumForNumber]
  refine P_extends_of _ (Out_extends_of (P_extends_of _ (Out_extends_of (P_extends_of _ ?_))))
  refine List.IsPrefix.trans ?_ (forNumberCases_extends _ _)
  exact In_extends_of (P_extends_of _ (In_extends_of (P_extends _ _)))

theorem populateEnum_extends (vopkg now : Str) (f : FileT) (e : EnumT) (g : GenState) :
    g.buffer <+: (populateEnum vopkg now f e g).buffer := by
  rw [populateEnum]
  refine P_extends_of _ (Out_extends_of ?_)
  refine List.IsPrefix.trans ?_ (populateEnumForNumber_extends _ _ _)
  refine List.IsPrefix.trans ?_ (populateEnumBoiler_extends _ _)
  refine List.IsPrefix.trans ?_ (populateEnumMembers_extends _ _ _ _)
  exact populateEnumHead_extends _ _ _ _ _

/-! The writeOutput flag is never changed by the emission primitives, so it
survives every construct generator. -/

theorem P_writeOutput (g : GenState) (atoms : List Atom) :
    (g.P atoms).writeOutput = g.writeOutput := by
  rw [GenState.P]; split <;> rfl

theorem In_writeOutput (g : GenState) : g.In.writeOutput = g.writeOutput := rfl

theorem Out_writeOutput (g : GenState) : g.Out.writeOutput = g.writeOutput := by
  rw [GenState.Out]; split <;> rfl

theorem PrintComments_writeOutput (g : GenState) (cm : List (Str × CommentLoc)) (path : Str) :
    (g.PrintComments cm path).1.writeOutput = g.writeOutput := by
  rw [GenState.PrintComments]
  split
  · rfl
  · split
    · exact P_writeOutput _ _
    · rfl

theorem foldl_P_writeOutput {α : Type} (h : α → List Atom) (l : List α) (g : GenState) :
    (l.foldl (fun g v => g.P (h v)) g).writeOutput = g.writeOutput := by
  induction l generalizing g with
  | nil => rfl
  | cons v rest ih => simp only [List.foldl_cons]; rw [ih, P_writeOutput]

theorem forNumberCases_writeOutput (vals : List EnumValueProto) (g : GenState) :
    (forNumberCases vals g).writeOutput = g.writeOutput := by
  rw [forNumberCases]
  exact foldl_P_writeOutput
    (fun v => [.s (bs "case "), .i v.number, .s (bs ": return "), .s v.name, .s (bs ";")])
    vals g

theorem populateHeaderComment_writeOutput (now : Str) (f : FileT) (g : GenState) :
    (populateHeaderComment now f g).writeOutput = g.writeOutput := by
  rw [populateHeaderComment]
  simp only [P_writeOutput, apply_ite GenState.writeOutput, ite_self]

theorem populateEnumHead_writeOutput (vopkg now : Str) (f : FileT) (e : EnumT) (g : GenState) :
    (populateEnumHead vopkg now f e g).writeOutput = g.writeOutput := by
  rw [populateEnumHead]
  simp only [P_writeOutput, PrintComments_writeOutput, populateHeaderComment_writeOutput,
    apply_ite GenState.writeOutput, ite_self]

theorem populateEnumValues_writeOutput (cm : List (Str × CommentLoc)) (epath : Str)
    (total : Nat) (vals : List EnumValueProto) (i : Nat) (g : GenState) :
    (populateEnumValues cm epath total vals i g).writeOutput = g.writeOutput := by
  induction vals generalizing i g with
  | nil => rfl
  | cons v rest ih =>
    rw [populateEnumValues, ih, P_writeOutput, PrintComments_writeOutput]

theorem populateEnumMembers_writeOutput (cm : List (Str × CommentLoc)) (e : EnumT)
    (scan : Bool × Str × Int) (g : GenState) :
    (populateEnumMembers cm e scan g).writeOutput = g.writeOutput := by
  rw [populateEnumMembers]
  simp only [populateEnumValues_writeOutput, P_writeOutput, In_writeOutput,
    apply_ite GenState.writeOutput, ite_self]

theorem populateEnumBoiler_writeOutput (e : EnumT) (g : GenState) :
    (populateEnumBoiler e g).writeOutput = g.writeOutput := by
  rw [populateEnumBoiler]
  simp only [P_writeOutput, In_writeOutput, Out_writeOutput]

/-! Localizing one emitted line: when writeOutput is on, P appends exactly
indent ++ rendered atoms ++ newline, so the rendered line is an infix of the
buffer from then on. -/

theorem P_emits_line (g : GenState) (h : g.writeOutput = true) (atoms : List Atom) :
    (g.P atoms).buffer = g.buffer ++ g.indent ++ renderAtoms atoms ++ [10] := by
  rw [GenState.P, h]; rfl

theorem renderAtoms_line_infix (g : GenState) (h : g.writeOutput = true) (atoms : List Atom) :
    (renderAtoms atoms ++ [10]) <:+: (g.P atoms).buffer := by
  rw [P_emits_line g h atoms]
  exact ⟨g.buffer ++ g.indent, [], by simp⟩

theorem infix_P {x : Str} {g : GenState} (atoms : List Atom) (h : x <:+: g.buffer) :
    x <:+: (g.P atoms).buffer := h.trans (P_extends g atoms).isInfix

theorem infix_Out {x : Str} {g : GenState} (h : x <:+: g.buffer) :
    x <:+: g.Out.buffer := h.trans (Out_extends g).isInfix

/-- The default case emitted by populateEnumForNumber carries the scanned
default name, and survives to the end of the forNumber method. -/
theorem populateEnumForNumber_default_line (e : EnumT) (scan : Bool × Str × Int)
    (g : GenState) (h : g.writeOutput = true) :
    (bs "default: return " ++ (scan.2.1 ++ (bs ";" ++ [10])))
      <:+: (populateEnumForNumber e scan g).buffer := by
  rw [populateEnumForNumber]
  have hw : (forNumberCases e.raw.value (((g.P [.s (bs "public static "), .s e.raw.name,
      .s (bs " forNumber(int value) \x7b")]).In.P [.s (bs "switch (value) \x7b")]).In)).writeOutput
      = true := by
    rw [forNumberCases_writeOutput, In_writeOutput, P_writeOutput, In_writeOutput,
      P_writeOutput]
    exact h
  have hx := renderAtoms_line_infix _ hw
    [.s (bs "default: return "), .s scan.2.1, .s (bs ";")]
  have h2 := infix_P [.s (bs "\x7d")] (infix_Out (infix_P [.s (bs "\x7d")] (infix_Out hx)))
  simpa [renderAtoms, renderAtom] using h2

/-- The scanned default name is that of the first declared member whose
lower-cased name contains default, unknow or invalid, and the synthesized
Unknown otherwise, whatever the running threshold. -/
theorem enumDefaultScan_name (l : List EnumValueProto) (dv : Int) :
    (enumDefaultScan l dv).2.1
      = ((l.find? defaultish).map EnumValueProto.name).getD (bs "Unknown") := by
  induction l generalizing dv with
  | nil => rfl
  | cons v rest ih =>
    rw [enumDefaultScan]
    cases hd : defaultish v with
    | true => simp [hd, List.find?_cons, hd]
    | false => simp only [hd, List.find?_cons, if_neg, Bool.false_eq_true, ite_false]; exact ih _

/-- The scanned threshold is the running minimum, starting from the seed, of
number minus one over the members before the first default-looking name:
the go loop guard number less or equal dv followed by dv := number - 1 is
exactly min dv (number - 1). -/
theorem enumDefaultScan_number (l : List EnumValueProto) : ∀ dv : Int,
    (enumDefaultScan l dv).2.2
      = (l.takeWhile (fun v => !defaultish v)).foldl
          (fun dv v => min dv (v.number - 1)) dv := by
  induction l with
  | nil => intro dv; rfl
  | cons v rest ih =>
    intro dv
    rw [enumDefaultScan]
    cases hd : defaultish v with
    | true => simp [hd, List.takeWhile_cons]
    | false =>
      have hacc : (if v.number ≤ dv then v.number - 1 else dv) = min dv (v.number - 1) := by
        rcases le_or_lt v.number dv with hle | hlt
        · rw [if_pos hle]
          omega
        · rw [if_neg (not_le.mpr hlt)]
          omega
      simp [hd, List.takeWhile_cons, hacc, ih]

/-- When the scan synthesized a default member, populateEnumMembers emits
its member line name(number) with the trailing comma. -/
theorem populateEnumMembers_sentinel_line (cm : List (Str × CommentLoc)) (e : EnumT)
    (scan : Bool × Str × Int) (g : GenState) (h : g.writeOutput = true)
    (hs : scan.1 = true) :
    (renderAtoms [.s scan.2.1, .s (bs "("), .i scan.2.2, .s (bs "),")] ++ [10])
      <:+: (populateEnumMembers cm e scan g).buffer := by
  have hw : ((g.P []).In).writeOutput = true := by
    rw [In_writeOutput, P_writeOutput]
    exact h
  have hx := renderAtoms_line_infix ((g.P []).In) hw
    [.s scan.2.1, .s (bs "("), .i scan.2.2, .s (bs "),")]
  simp only [populateEnumMembers, hs, eq_self_iff_true, if_true]
  exact hx.trans (populateEnumValues_extends _ _ _ _ _ _).isInfix

/-- C4, counterexample.  The enum Color with members RED = 0 and GREEN = 1
has no explicit default, yet the generated forNumber falls back to the
synthesized Unknown member, not to the first declared value RED. -/
theorem enum_default_counterexample :
    containsStr (populateEnum (bs "com.x") (bs "T") demoFileC4 colorEnum
        ⟨[], [], true⟩).buffer (bs "default: return Unknown;") = true
    ∧ containsStr (populateEnum (bs "com.x") (bs "T") demoFileC4 colorEnum
        ⟨[], [], true⟩).buffer (bs "default: return RED;") = false := by
  constructor <;> decide

/-- C4 (corrected).  Whenever output is being written, the forNumber method
generated by populateEnum falls back to the scanned default name: the first
declared member whose lower-cased name contains default, unknow or invalid,
or the synthesized sentinel Unknown when no such member exists — never the
first declared value as such.  When the sentinel is synthesized its member
line Unknown(number), is emitted, and its number is the running minimum,
starting at minus one, of number minus one over the members scanned before
any default-looking name — min of -1 and the least scanned number minus
one, so an all-nonnegative enum gets Unknown(-1). -/
theorem enum_forNumber_default (vopkg now : Str) (f : FileT) (e : EnumT) (g : GenState)
    (h : g.writeOutput = true) :
    (bs "default: return " ++ (enumDefaultName e.raw ++ (bs ";" ++ [10])))
      <:+: (populateEnum vopkg now f e g).buffer
    ∧ enumDefaultName e.raw
      = ((e.raw.value.find? defaultish).map EnumValueProto.name).getD (bs "Unknown")
    ∧ ((enumDefaultScan e.raw.value (-1)).1 = true →
        ((enumDefaultScan e.raw.value (-1)).2.1
            ++ (bs "(" ++ (bs (toString (enumDefaultScan e.raw.value (-1)).2.2)
              ++ (bs ")," ++ [10]))))
          <:+: (populateEnum vopkg now f e g).buffer)
    ∧ (enumDefaultScan e.raw.value (-1)).2.2
      = (e.raw.value.takeWhile (fun v => !defaultish v)).foldl
          (fun dv v => min dv (v.number - 1)) (-1) := by
  refine ⟨?_, ?_, ?_, ?_⟩
  · rw [populateEnum, enumDefaultName]
    refine infix_P _ (infix_Out ?_)
    have hw : (populateEnumBoiler e (populateEnumMembers f.comments e
        (enumDefaultScan e.raw.value (-1)) (populateEnumHead vopkg now f e g))).writeOutput
        = true := by
      rw [populateEnumBoiler_writeOutput, populateEnumMembers_writeOutput,
        populateEnumHead_writeOutput]
      exact h
    exact populateEnumForNumber_default_line e _ _ hw
  · rw [enumDefaultName]
    exact enumDefaultScan_name e.raw.value (-1)
  · intro hs
    rw [populateEnum]
    refine infix_P _ (infix_Out ?_)
    have hwH : (populateEnumHead vopkg now f e g).writeOutput = true := by
      rw [populateEnumHead_writeOutput]
      exact h
    have hx := populateEnumMembers_sentinel_line f.comments e
      (enumDefaultScan e.raw.value (-1)) (populateEnumHead vopkg now f e g) hwH hs
    have h2 := (hx.trans (populateEnumBoiler_extends e _).isInfix).trans
      (populateEnumForNumber_extends e (enumDefaultScan e.raw.value (-1)) _).isInfix
    simpa [renderAtoms, renderAtom] using h2
  · exact enumDefaultScan_number e.raw.value (-1)

/-- C4 witness: the corrected statement instantiated on the wrapped Color
enum from a fresh writing generator state; the scan indeed synthesizes a
sentinel there, so the emission implication is not vacuous. -/
theorem enum_forNumber_default_witness :
    (⟨[], [], true⟩ : GenState).writeOutput = true
    ∧ ((bs "default: return " ++ (enumDefaultName colorEnum.raw ++ (bs ";" ++ [10])))
        <:+: (populateEnum (bs "com.x") (bs "T") demoFileC4 colorEnum ⟨[], [], true⟩).buffer
      ∧ enumDefaultName colorEnum.raw
        = ((colorEnum.raw.value.find? defaultish).map EnumValueProto.name).getD (bs "Unknown")
      ∧ ((enumDefaultScan colorEnum.raw.value (-1)).1 = true →
          ((enumDefaultScan colorEnum.raw.value (-1)).2.1
              ++ (bs "(" ++ (bs (toString (enumDefaultScan colorEnum.raw.value (-1)).2.2)
                ++ (bs ")," ++ [10]))))
            <:+: (populateEnum (bs "com.x") (bs "T") demoFileC4 colorEnum
              ⟨[], [], true⟩).buffer)
      ∧ (enumDefaultScan colorEnum.raw.value (-1)).2.2
        = (colorEnum.raw.value.takeWhile (fun v => !defaultish v)).foldl
            (fun dv v => min dv (v.number - 1)) (-1))
    ∧ (enumDefaultScan colorEnum.raw.value (-1)).1 = true
    ∧ (enumDefaultScan colorEnum.raw.value (-1)).2.2 = -1 :=
  ⟨rfl, enum_forNumber_default (bs "com.x") (bs "T") demoFileC4 colorEnum ⟨[], [], true⟩ rfl,
    by decide, by decide⟩

/-! C2: which wrapped descriptors are artifact-eligible, and the shape of
the declaration emitted for a lowered map field. -/

theorem wrapMsgT_parentNone : ∀ (m : MessageProto) (pn : Bool) (ptn : List Str)
    (ppath : Str) (idx : Nat), (wrapMsgT m pn ptn ppath idx).parentNone = pn
  | .mk _ _ _ _ _ _, _, _, _, _ => rfl

theorem wrapEnumTs_nonroot : ∀ (es : List EnumProto) (ptn : List Str) (ppath : Str)
    (idx : Nat), (wrapEnumTs es ptn ppath idx).all (fun e => !e.parentNone) = true
  | [], _, _, _ => rfl
  | e :: rest, ptn, ppath, idx => by
    simp only [wrapEnumTs, List.all_cons, wrapEnumTs_nonroot rest ptn ppath (idx + 1),
      Bool.and_true]
    rfl

mutual
theorem wrapMsgT_childrenNested : ∀ (m : MessageProto) (pn : Bool) (ptn : List Str)
    (ppath : Str) (idx : Nat), childrenNested (wrapMsgT m pn ptn ppath idx) = true
  | .mk n f nested enums me dep, pn, ptn, ppath, idx => by
    rw [wrapMsgT, childrenNested, Bool.and_eq_true]
    exact ⟨wrapEnumTs_nonroot enums _ _ 0, wrapMsgTs_childrenNested nested _ _ 0⟩

theorem wrapMsgTs_childrenNested : ∀ (ms : List MessageProto) (ptn : List Str)
    (ppath : Str) (idx : Nat), childrenNestedList (wrapMsgTs ms ptn ppath idx) = true
  | [], _, _, _ => rfl
  | m :: rest, ptn, ppath, idx => by
    rw [wrapMsgTs, childrenNestedList, Bool.and_eq_true, Bool.and_eq_true]
    refine ⟨⟨?_, wrapMsgT_childrenNested m false ptn ppath idx⟩,
      wrapMsgTs_childrenNested rest ptn ppath (idx + 1)⟩
    rw [wrapMsgT_parentNone]
    rfl
end

mutual
theorem flattenMsg_nonroot : ∀ (m : MsgT), m.parentNone = false → childrenNested m = true →
    ∀ x ∈ flattenMsg m, x.parentNone = false
  | .mk n f e ns me dep pn tn pth, hm, hc, x, hx => by
    rw [flattenMsg] at hx
    rcases List.mem_cons.mp hx with h | h
    · subst h; exact hm
    · rw [childrenNested, Bool.and_eq_true] at hc
      exact flattenMsgs_nonroot ns hc.2 x h

theorem flattenMsgs_nonroot : ∀ (ms : List MsgT), childrenNestedList ms = true →
    ∀ x ∈ flattenMsgs ms, x.parentNone = false
  | [], _, x, hx => by rw [flattenMsgs] at hx; cases hx
  | m :: rest, hc, x, hx => by
    rw [flattenMsgs] at hx
    rw [childrenNestedList, Bool.and_eq_true, Bool.and_eq_true] at hc
    rcases List.mem_append.mp hx with h | h
    · exact flattenMsg_nonroot m (by simpa using hc.1.1) hc.1.2 x h
    · exact flattenMsgs_nonroot rest hc.2 x h
end

theorem filter_flattenMsgs_roots (ms : List MsgT)
    (hroot : ∀ m ∈ ms, m.parentNone = true) (hc : ∀ m ∈ ms, childrenNested m = true) :
    (flattenMsgs ms).filter (fun d => d.parentNone) = ms := by
  induction ms with
  | nil => rfl
  | cons m rest ih =>
    rw [flattenMsgs, List.filter_append]
    have hm := hroot m (List.mem_cons_self m rest)
    have hcm := hc m (List.mem_cons_self m rest)
    have hhead : (flattenMsg m).filter (fun d => d.parentNone) = [m] := by
      match m, hm, hcm with
      | .mk n f e ns me dep pn tn pth, hm, hcm =>
        rw [flattenMsg, List.filter_cons]
        rw [childrenNested, Bool.and_eq_true] at hcm
        have hnil : (flattenMsgs ns).filter (fun d => d.parentNone) = [] :=
          List.filter_eq_nil_iff.mpr (fun a ha => by
            rw [flattenMsgs_nonroot ns hcm.2 a ha]; simp)
        rw [hnil]
        simp [hm]
    rw [hhead, ih (fun x hx => hroot x (List.mem_cons_of_mem m hx))
      (fun x hx => hc x (List.mem_cons_of_mem m hx))]
    rfl

theorem wrapFile_filter_roots (vopkg : Str) (proto : FileProto) :
    ((wrapFile vopkg proto).allDescs).filter (fun d => d.parentNone)
      = (wrapFile vopkg proto).msgs := by
  rw [FileT.allDescs]
  apply filter_flattenMsgs_roots
  · intro m hm
    simp only [wrapFile] at hm
    rw [wrapFile.wrapMsgTs'] at hm
    rcases List.mem_map.mp hm with ⟨p, hp, h⟩
    rw [← h, wrapMsgT_parentNone]
  · intro m hm
    simp only [wrapFile] at hm
    rw [wrapFile.wrapMsgTs'] at hm
    rcases List.mem_map.mp hm with ⟨p, hp, h⟩
    rw [← h]
    exact wrapMsgT_childrenNested _ _ _ _ _

theorem beansDescs_names (vopkg : Str) (tm : List (Str × Object)) (now : Str) (f : FileT) :
    ∀ (l : List MsgT) (g g' : GenState) (arts : List (Str × Str)),
    beansDescs vopkg tm now f l g = .ok (g', arts) →
    arts.map Prod.fst = (l.filter (fun d => d.parentNone)).map
      (fun d => pathJoin ((getFullPathComponents vopkg d.typename).dropLast
        ++ [d.name ++ bs ".java"])) := by
  intro l
  induction l with
  | nil =>
    intro g g' arts h
    rw [beansDescs] at h
    simp only [Except.ok.injEq, Prod.mk.injEq] at h
    obtain ⟨rfl, rfl⟩ := h
    rfl
  | cons d rest ih =>
    intro g g' arts h
    rw [beansDescs] at h
    by_cases hd : d.parentNone
    · rw [if_neg (by simp [hd])] at h
      cases hp : populateDescriptor vopkg tm now f d { g with buffer := [] } with
      | error e => simp only [hp] at h; exact (Except.noConfusion h)
      | ok g1 =>
        simp only [hp] at h
        cases hr : beansDescs vopkg tm now f rest g1 with
        | error e => simp only [hr] at h; exact (Except.noConfusion h)
        | ok p =>
          obtain ⟨g2, arts2⟩ := p
          simp only [hr] at h
          simp only [Except.ok.injEq, Prod.mk.injEq] at h
          obtain ⟨rfl, rfl⟩ := h
          rw [List.filter_cons_of_pos (by simpa using hd), List.map_cons, List.map_cons]
          exact congrArg (List.cons _) (ih g1 g2 arts2 hr)
    · rw [if_pos (by simpa using hd)] at h
      rw [List.filter_cons_of_neg (by simpa using hd)]
      exact ih g g' arts h

/-- C2, counterexample.  On the protoc lowering of map<string, int32> foo
the real type map resolves the field to the synthetic entry message, and the
rendered field type is List<M.FooEntry> — it references the entry type by
name and has no Map shape at all. -/
theorem map_entry_counterexample :
    fieldTypeDesc demoTmC2 mapFooField = .ok (bs "List<M.FooEntry>")
    ∧ ((fieldTypeDesc demoTmC2 mapFooField).toOption.map
        (fun td => containsStr td (bs "Map<"))) = some false := by
  constructor <;> decide

/-- C2 (corrected).  Standalone artifacts are produced exactly for the
top-level wrapped messages (synthetic map-entry messages, being nested
children, are artifact-ineligible), but a repeated message field — which is
what a map field reaches the generator as — is emitted as a declaration of
shape List of the entry type name, not a Map of key and value types. -/
theorem map_entry_emission (vopkg : Str) (proto : FileProto) :
    ((wrapFile vopkg proto).allDescs).filter (fun d => d.parentNone)
      = (wrapFile vopkg proto).msgs
    ∧ (∀ (tm : List (Str × Object)) (now : Str) (l : List MsgT) (g g' : GenState)
        (arts : List (Str × Str)),
        beansDescs vopkg tm now (wrapFile vopkg proto) l g = .ok (g', arts) →
        arts.map Prod.fst = (l.filter (fun d => d.parentNone)).map
          (fun d => pathJoin ((getFullPathComponents vopkg d.typename).dropLast
            ++ [d.name ++ bs ".java"])))
    ∧ (∀ (tm : List (Str × Object)) (f : FileT) (mpath : Str) (field : FieldProto)
        (i : Nat) (g : GenState) (obj : Object),
        field.type = some FieldType.messageT → isRepeated field = true →
        lookupStr tm field.typeName = some obj →
        ∃ g', populateField tm f mpath field i g = Except.ok g'
          ∧ (g.writeOutput = true →
              (bs "public " ++ ((bs "List<" ++ relativeTypeName obj field ++ bs ">")
                ++ (bs " " ++ (javaFieldName field ++ bs ";"))))
                <:+: g'.buffer)) := by
  refine ⟨wrapFile_filter_roots vopkg proto,
    fun tm now l g g' arts h => beansDescs_names vopkg tm now _ l g g' arts h,
    fun tm f mpath field i g obj ht hrep hlk => ?_⟩
  have htd : fieldTypeDesc tm field
      = .ok (bs "List<" ++ relativeTypeName obj field ++ bs ">") := by
    simp only [fieldTypeDesc, ht, getFieldTypeName, hlk, hrep, if_true]
  rw [populateField, htd]
  refine ⟨_, rfl, fun hw => ?_⟩
  have hw1 : ((g.PrintComments f.comments (mpath ++ bs ",2," ++ natStr i)).1).writeOutput
      = true := by
    rw [PrintComments_writeOutput]; exact hw
  have hline := renderAtoms_line_infix _ hw1
    [.s (bs "public "), .s (bs "List<" ++ relativeTypeName obj field ++ bs ">"),
     .s (bs " "), .s (javaFieldName field), .s (bs ";"),
     .s (match tailingComments f.comments (mpath ++ bs ",2," ++ natStr i) with
         | none => []
         | some t => bs " " ++ t)]
  refine List.IsInfix.trans (List.IsPrefix.isInfix ⟨(match tailingComments f.comments
    (mpath ++ bs ",2," ++ natStr i) with
    | none => []
    | some t => bs " " ++ t) ++ [10], ?_⟩) hline
  simp [renderAtoms, renderAtom]

/-- C2 witness: the corrected statement instantiated on the lowered
map<string, int32> demo file, with the resolution hypotheses checked on the
real type map. -/
theorem map_entry_emission_witness :
    mapFooField.type = some FieldType.messageT
    ∧ isRepeated mapFooField = true
    ∧ lookupStr demoTmC2 mapFooField.typeName = some fooEntryObj
    ∧ (∃ g', populateField demoTmC2 demoFileC2 (bs "4,0") mapFooField 0
          ⟨[], [], true⟩ = Except.ok g'
        ∧ ((⟨[], [], true⟩ : GenState).writeOutput = true →
            (bs "public " ++ ((bs "List<" ++ relativeTypeName fooEntryObj mapFooField
              ++ bs ">") ++ (bs " " ++ (javaFieldName mapFooField ++ bs ";"))))
              <:+: g'.buffer)) :=
  ⟨rfl, rfl, by decide,
    (map_entry_emission (bs "com.x") demoProtoC2).2.2 demoTmC2 demoFileC2 (bs "4,0")
      mapFooField 0 ⟨[], [], true⟩ fooEntryObj rfl rfl (by decide)⟩

/-! C1: dependence of the generated output on the formatted clock string.
Every emission step appends a block that does not depend on the buffer
already accumulated; the only step that reads the clock is the banner line
of populateHeaderComment.  We track per construct generator either a
clock-free appended block or an affine function of the clock. -/

theorem iteB_true {α : Type} (a b : α) : (if true = true then a else b) = a := rfl

theorem iteB_false {α : Type} (a b : α) : (if false = true then a else b) = b := rfl

theorem affine_id : NowAffine (fun s => s) :=
  ⟨[], [], fun s => by simp⟩

theorem NowAffine.front (u : Str) {h : Str → Str} (hh : NowAffine h) :
    NowAffine (fun s => u ++ h s) := by
  obtain ⟨pre, post, hp⟩ := hh
  exact ⟨u ++ pre, post, fun s => by simp [hp, List.append_assoc]⟩

theorem NowAffine.back (u : Str) {h : Str → Str} (hh : NowAffine h) :
    NowAffine (fun s => h s ++ u) := by
  obtain ⟨pre, post, hp⟩ := hh
  exact ⟨pre, post ++ u, fun s => by simp [hp, List.append_assoc]⟩

theorem reset_buffer (b i : Str) (w : Bool) :
    ({ (⟨b, i, w⟩ : GenState) with buffer := [] } : GenState) = ⟨[], i, w⟩ := rfl

theorem set_writeOutput (b i : Str) (w : Bool) :
    ({ (⟨b, i, w⟩ : GenState) with writeOutput := true } : GenState) = ⟨b, i, true⟩ := rfl

theorem P_step (b i : Str) (atoms : List Atom) :
    (GenState.mk b i true).P atoms = ⟨b ++ (i ++ renderAtoms atoms ++ [10]), i, true⟩ := by
  simp [GenState.P]

theorem In_step (b i : Str) (w : Bool) :
    (GenState.mk b i w).In = ⟨b, i ++ DefaultIndent, w⟩ := rfl

theorem Out_step (b i : Str) (w : Bool) :
    (GenState.mk b i w).Out = ⟨b, outInd i, w⟩ := by
  rw [GenState.Out, outInd]
  by_cases h : i.length > 0
  · rw [if_pos h, if_pos h]
  · rw [if_neg h, if_neg h]

theorem PrintComments_step (b i : Str) (cm : List (Str × CommentLoc)) (path : Str) :
    ((GenState.mk b i true).PrintComments cm path).1 = ⟨b ++ pcOut cm path i, i, true⟩ := by
  rw [GenState.PrintComments, pcOut]
  cases hm : makeComments cm path with
  | none => simp [hm]
  | some c => simp [hm, GenState.P]

theorem foldl_P_step {α : Type} (h : α → List Atom) (l : List α) (i : Str) :
    ∃ out : Str, ∀ b : Str,
      l.foldl (fun (g : GenState) v => g.P (h v)) ⟨b, i, true⟩ = ⟨b ++ out, i, true⟩ := by
  induction l with
  | nil => exact ⟨[], fun b => by simp⟩
  | cons v rest ih =>
    obtain ⟨out, hout⟩ := ih
    refine ⟨(i ++ renderAtoms (h v) ++ [10]) ++ out, fun b => ?_⟩
    rw [List.foldl_cons, P_step, hout, List.append_assoc]

theorem forNumberCases_step (vals : List EnumValueProto) (i : Str) :
    ∃ out : Str, ∀ b : Str, forNumberCases vals ⟨b, i, true⟩ = ⟨b ++ out, i, true⟩ := by
  obtain ⟨out, hout⟩ := foldl_P_step
    (fun v => [.s (bs "case "), .i v.number, .s (bs ": return "), .s v.name, .s (bs ";")])
    vals i
  exact ⟨out, fun b => by rw [forNumberCases]; exact hout b⟩

theorem populateHeaderComment_split (f : FileT) (i : Str) :
    ∃ bufF : Str → Str, NowAffine bufF ∧ ∀ (now b : Str),
      populateHeaderComment now f ⟨b, i, true⟩ = ⟨b ++ bufF now, i, true⟩ := by
  cases hd : (f.options.map FileOptions.deprecated).getD false
  all_goals
    have key : ∀ (now b : Str), populateHeaderComment now f ⟨b, i, true⟩
        = populateHeaderComment now f ⟨b, i, true⟩ := fun _ _ => rfl
    conv at key =>
      ext now b
      rhs
      simp only [populateHeaderComment, hd, iteB_true, iteB_false, if_true, if_false,
        P_step, renderAtoms, renderAtom, List.map_cons, List.map_nil, List.flatten_cons,
        List.flatten_nil, List.append_nil, List.append_assoc]
    refine ⟨_, ?_, key⟩
    repeat first
      | exact NowAffine.back _ affine_id
      | apply NowAffine.front

theorem populateEnumValues_step (cm : List (Str × CommentLoc)) (epath : Str) (total : Nat) :
    ∀ (vals : List EnumValueProto) (k : Nat) (i : Str), ∃ out : Str, ∀ b : Str,
      populateEnumValues cm epath total vals k ⟨b, i, true⟩ = ⟨b ++ out, i, true⟩
  | [], k, i => ⟨[], fun b => by simp [populateEnumValues]⟩
  | v :: rest, k, i => by
    obtain ⟨out, hout⟩ := populateEnumValues_step cm epath total rest (k + 1) i
    have key : ∀ b : Str, populateEnumValues cm epath total (v :: rest) k ⟨b, i, true⟩
        = populateEnumValues cm epath total (v :: rest) k ⟨b, i, true⟩ := fun _ => rfl
    conv at key =>
      ext b
      rhs
      simp only [populateEnumValues, PrintComments_step, P_step, hout, List.append_assoc]
    exact ⟨_, key⟩

theorem populateEnumHead_nonroot_step (vopkg : Str) (f : FileT) (e : EnumT)
    (hroot : e.parentNone = false) (i : Str) :
    ∃ out : Str, ∀ (now b : Str),
      populateEnumHead vopkg now f e ⟨b, i, true⟩ = ⟨b ++ out, i, true⟩ := by
  cases hd : e.raw.deprecated
  all_goals
    have key : ∀ (now b : Str), populateEnumHead vopkg now f e ⟨b, i, true⟩
        = populateEnumHead vopkg now f e ⟨b, i, true⟩ := fun _ _ => rfl
    conv at key =>
      ext now b
      rhs
      simp only [populateEnumHead, hroot, hd, iteB_true, iteB_false, if_true, if_false,
        PrintComments_step, P_step, List.append_assoc]
    exact ⟨_, key⟩

theorem populateEnumHead_root_split (vopkg : Str) (f : FileT) (e : EnumT)
    (hroot : e.parentNone = true) (i : Str) :
    ∃ bufF : Str → Str, NowAffine bufF ∧ ∀ (now b : Str),
      populateEnumHead vopkg now f e ⟨b, i, true⟩ = ⟨b ++ bufF now, i, true⟩ := by
  obtain ⟨bufH, haff, hh⟩ := populateHeaderComment_split f i
  cases hd : e.raw.deprecated
  all_goals
    have key : ∀ (now b : Str), populateEnumHead vopkg now f e ⟨b, i, true⟩
        = populateEnumHead vopkg now f e ⟨b, i, true⟩ := fun _ _ => rfl
    conv at key =>
      ext now b
      rhs
      simp only [populateEnumHead, hroot, hd, iteB_true, iteB_false, if_true, if_false,
        P_step, hh, PrintComments_step, List.append_assoc]
    refine ⟨_, ?_, key⟩
    repeat first
      | exact NowAffine.back _ haff
      | exact haff
      | apply NowAffine.front

theorem populateEnumMembers_step (cm : List (Str × CommentLoc)) (e : EnumT)
    (scan : Bool × Str × Int) (i : Str) :
    ∃ (out i' : Str), ∀ b : Str,
      populateEnumMembers cm e scan ⟨b, i, true⟩ = ⟨b ++ out, i', true⟩ := by
  obtain ⟨out2, hout2⟩ :=
    populateEnumValues_step cm e.path e.raw.value.length e.raw.value 0 (i ++ DefaultIndent)
  cases hs : scan.1
  all_goals
    have key : ∀ b : Str, populateEnumMembers cm e scan ⟨b, i, true⟩
        = populateEnumMembers cm e scan ⟨b, i, true⟩ := fun _ => rfl
    conv at key =>
      ext b
      rhs
      simp only [populateEnumMembers, hs, iteB_true, iteB_false, if_true, if_false,
        P_step, In_step, hout2, List.append_assoc]
    exact ⟨_, _, key⟩

theorem populateEnumBoiler_step (e : EnumT) (i : Str) :
    ∃ (out i' : Str), ∀ b : Str,
      populateEnumBoiler e ⟨b, i, true⟩ = ⟨b ++ out, i', true⟩ := by
  have key : ∀ b : Str, populateEnumBoiler e ⟨b, i, true⟩
      = populateEnumBoiler e ⟨b, i, true⟩ := fun _ => rfl
  conv at key =>
    ext b
    rhs
    simp only [populateEnumBoiler, P_step, In_step, Out_step, List.append_assoc]
  exact ⟨_, _, key⟩

theorem populateEnumForNumber_step (e : EnumT) (scan : Bool × Str × Int) (i : Str) :
    ∃ (out i' : Str), ∀ b : Str,
      populateEnumForNumber e scan ⟨b, i, true⟩ = ⟨b ++ out, i', true⟩ := by
  obtain ⟨outc, houtc⟩ := forNumberCases_step e.raw.value (i ++ (DefaultIndent ++ DefaultIndent))
  have key : ∀ b : Str, populateEnumForNumber e scan ⟨b, i, true⟩
      = populateEnumForNumber e scan ⟨b, i, true⟩ := fun _ => rfl
  conv at key =>
    ext b
    rhs
    simp only [populateEnumForNumber, P_step, In_step, List.append_assoc, houtc, Out_step]
  exact ⟨_, _, key⟩

theorem populateEnum_nonroot_step (vopkg : Str) (f : FileT) (e : EnumT)
    (hroot : e.parentNone = false) (i : Str) :
    ∃ (out i' : Str), ∀ (now b : Str),
      populateEnum vopkg now f e ⟨b, i, true⟩ = ⟨b ++ out, i', true⟩ := by
  obtain ⟨o1, h1⟩ := populateEnumHead_nonroot_step vopkg f e hroot i
  obtain ⟨o2, i2, h2⟩ := populateEnumMembers_step f.comments e (enumDefaultScan e.raw.value (-1)) i
  obtain ⟨o3, i3, h3⟩ := populateEnumBoiler_step e i2
  obtain ⟨o4, i4, h4⟩ := populateEnumForNumber_step e (enumDefaultScan e.raw.value (-1)) i3
  have key : ∀ (now b : Str), populateEnum vopkg now f e ⟨b, i, true⟩
      = populateEnum vopkg now f e ⟨b, i, true⟩ := fun _ _ => rfl
  conv at key =>
    ext now b
    rhs
    simp only [populateEnum, h1, h2, h3, h4, Out_step, P_step, List.append_assoc]
  exact ⟨_, _, key⟩

theorem populateEnum_root_split (vopkg : Str) (f : FileT) (e : EnumT)
    (hroot : e.parentNone = true) (i : Str) :
    ∃ (i' : Str) (bufF : Str → Str), NowAffine bufF ∧ ∀ (now b : Str),
      populateEnum vopkg now f e ⟨b, i, true⟩ = ⟨b ++ bufF now, i', true⟩ := by
  obtain ⟨bufH, haff, h1⟩ := populateEnumHead_root_split vopkg f e hroot i
  obtain ⟨o2, i2, h2⟩ := populateEnumMembers_step f.comments e (enumDefaultScan e.raw.value (-1)) i
  obtain ⟨o3, i3, h3⟩ := populateEnumBoiler_step e i2
  obtain ⟨o4, i4, h4⟩ := populateEnumForNumber_step e (enumDefaultScan e.raw.value (-1)) i3
  have key : ∀ (now b : Str), populateEnum vopkg now f e ⟨b, i, true⟩
      = populateEnum vopkg now f e ⟨b, i, true⟩ := fun _ _ => rfl
  conv at key =>
    ext now b
    rhs
    simp only [populateEnum, h1, h2, h3, h4, Out_step, P_step, List.append_assoc]
  refine ⟨_, _, ?_, key⟩
  exact NowAffine.back _ haff

theorem childrenNestedList_props : ∀ (ms : List MsgT), childrenNestedList ms = true →
    ∀ m ∈ ms, m.parentNone = false ∧ childrenNested m = true
  | [], _, m, hm => by cases hm
  | x :: rest, hc, m, hm => by
    rw [childrenNestedList, Bool.and_eq_true, Bool.and_eq_true] at hc
    rcases List.mem_cons.mp hm with h | h
    · subst h; exact ⟨by simpa using hc.1.1, hc.1.2⟩
    · exact childrenNestedList_props rest hc.2 m h

mutual
theorem flattenMsg_childrenNested : ∀ (m : MsgT), childrenNested m = true →
    ∀ x ∈ flattenMsg m, childrenNested x = true
  | .mk n f e ns me dep pn tn pth, hc, x, hx => by
    rw [flattenMsg] at hx
    rcases List.mem_cons.mp hx with h | h
    · subst h; exact hc
    · have hc2 := hc
      rw [childrenNested, Bool.and_eq_true] at hc2
      exact flattenMsgs_childrenNested ns
        (fun m hm => (childrenNestedList_props ns hc2.2 m hm).2) x h

theorem flattenMsgs_childrenNested : ∀ (ms : List MsgT),
    (∀ m ∈ ms, childrenNested m = true) → ∀ x ∈ flattenMsgs ms, childrenNested x = true
  | [], _, x, hx => by rw [flattenMsgs] at hx; cases hx
  | m :: rest, hc, x, hx => by
    rw [flattenMsgs] at hx
    rcases List.mem_append.mp hx with h | h
    · exact flattenMsg_childrenNested m (hc m (List.mem_cons_self m rest)) x h
    · exact flattenMsgs_childrenNested rest
        (fun y hy => hc y (List.mem_cons_of_mem m hy)) x h
end

theorem wrapFile_allDescs_childrenNested (vopkg : Str) (proto : FileProto) :
    ∀ d ∈ (wrapFile vopkg proto).allDescs, childrenNested d = true := by
  intro d hd
  rw [FileT.allDescs] at hd
  refine flattenMsgs_childrenNested _ ?_ d hd
  intro m hm
  simp only [wrapFile] at hm
  rw [wrapFile.wrapMsgTs'] at hm
  rcases List.mem_map.mp hm with ⟨p, hp, h⟩
  rw [← h]
  exact wrapMsgT_childrenNested _ _ _ _ _

theorem populateField_step (tm : List (Str × Object)) (f : FileT) (mpath : Str)
    (field : FieldProto) (k : Nat) (i : Str) :
    (∃ e, ∀ b, populateField tm f mpath field k ⟨b, i, true⟩ = .error e)
    ∨ (∃ out : Str, ∀ b,
        populateField tm f mpath field k ⟨b, i, true⟩ = .ok ⟨b ++ out, i, true⟩) := by
  cases htd : fieldTypeDesc tm field with
  | error e => exact Or.inl ⟨e, fun b => by simp only [populateField, htd]⟩
  | ok td =>
    have key : ∀ b : Str, populateField tm f mpath field k ⟨b, i, true⟩
        = populateField tm f mpath field k ⟨b, i, true⟩ := fun _ => rfl
    conv at key =>
      ext b
      rhs
      simp only [populateField, htd, PrintComments_step, P_step, List.append_assoc]
    exact Or.inr ⟨_, key⟩

theorem populateFields_step (tm : List (Str × Object)) (f : FileT) (mpath : Str) :
    ∀ (fields : List FieldProto) (k : Nat) (i : Str),
    (∃ e, ∀ b, populateFields tm f mpath fields k ⟨b, i, true⟩ = .error e)
    ∨ (∃ out : Str, ∀ b,
        populateFields tm f mpath fields k ⟨b, i, true⟩ = .ok ⟨b ++ out, i, true⟩)
  | [], k, i => Or.inr ⟨[], fun b => by simp [populateFields]⟩
  | fl :: rest, k, i => by
    rcases populateField_step tm f mpath fl k i with ⟨e, he⟩ | ⟨o1, h1⟩
    · exact Or.inl ⟨e, fun b => by simp only [populateFields, he]⟩
    · rcases populateFields_step tm f mpath rest (k + 1) i with ⟨e, he2⟩ | ⟨o2, h2⟩
      · exact Or.inl ⟨e, fun b => by simp only [populateFields, h1, he2]⟩
      · have key : ∀ b : Str, populateFields tm f mpath (fl :: rest) k ⟨b, i, true⟩
            = populateFields tm f mpath (fl :: rest) k ⟨b, i, true⟩ := fun _ => rfl
        conv at key =>
          ext b
          rhs
          simp only [populateFields, h1, h2, List.append_assoc]
        exact Or.inr ⟨_, key⟩

theorem populateDescriptorImports_step (tm : List (Str × Object)) (thisPackage : Str)
    (msg : MsgT) (i : Str) :
    (∃ e, ∀ b, populateDescriptorImports tm thisPackage msg ⟨b, i, true⟩ = .error e)
    ∨ (∃ out : Str, ∀ b, populateDescriptorImports tm thisPackage msg ⟨b, i, true⟩
        = .ok ⟨b ++ out, i, true⟩) := by
  cases him : extractImports tm msg ([], []) with
  | error e => exact Or.inl ⟨e, fun b => by simp only [populateDescriptorImports, him]⟩
  | ok imps =>
    obtain ⟨o1, h1⟩ := foldl_P_step (fun p => [.s (bs "import "), .s p, .s (bs ";")])
      ((sortStrs imps.2).filter (fun p => !(thisPackage.isPrefixOf p))) i
    obtain ⟨o2, h2⟩ := foldl_P_step (fun p => [.s (bs "import "), .s p, .s (bs ";")])
      (sortStrs imps.1) i
    refine Or.inr ?_
    by_cases c1 : imps.2 ≠ []
    all_goals by_cases c2 :
      (sortStrs imps.2).filter (fun p => !(thisPackage.isPrefixOf p)) ≠ []
    all_goals by_cases c3 : imps.1 ≠ []
    all_goals
      have key : ∀ b : Str, populateDescriptorImports tm thisPackage msg ⟨b, i, true⟩
          = populateDescriptorImports tm thisPackage msg ⟨b, i, true⟩ := fun _ => rfl
      conv at key =>
        ext b
        rhs
        simp only [populateDescriptorImports, him, ne_eq, c1, c2, c3, not_false_eq_true,
          h1, h2, P_step, if_true, if_false, List.append_assoc]
      first
      | exact ⟨_, key⟩
      | exact ⟨[], fun b => by rw [key b, List.append_nil]⟩

theorem populateDescriptorHead_split (vopkg : Str) (tm : List (Str × Object))
    (f : FileT) (msg : MsgT) (i : Str) :
    (∃ e, ∀ (now b : Str),
      populateDescriptorHead vopkg tm now f msg ⟨b, i, true⟩ = .error e)
    ∨ (∃ bufF : Str → Str, NowAffine bufF ∧ ∀ (now b : Str),
        populateDescriptorHead vopkg tm now f msg ⟨b, i, true⟩
          = .ok ⟨b ++ bufF now, i, true⟩) := by
  obtain ⟨bufH, haff, hh⟩ := populateHeaderComment_split f i
  rcases populateDescriptorImports_step tm (packagePathOf vopkg msg.typename) msg i with
    ⟨e, he⟩ | ⟨oi, hi⟩
  · exact Or.inl ⟨e, fun now b => by
      simp only [populateDescriptorHead, P_step, hh, he]⟩
  · have key : ∀ (now b : Str), populateDescriptorHead vopkg tm now f msg ⟨b, i, true⟩
        = populateDescriptorHead vopkg tm now f msg ⟨b, i, true⟩ := fun _ _ => rfl
    conv at key =>
      ext now b
      rhs
      simp only [populateDescriptorHead, P_step, hh, hi, List.append_assoc]
    refine Or.inr ⟨_, ?_, key⟩
    repeat
      first
      | exact NowAffine.back _ haff
      | exact haff
      | apply NowAffine.front

theorem populateDescriptorClassLine_step (cm : List (Str × CommentLoc)) (msg : MsgT)
    (i : Str) :
    ∃ (out i' : Str), ∀ b,
      populateDescriptorClassLine cm msg ⟨b, i, true⟩ = ⟨b ++ out, i', true⟩ := by
  cases hd : msg.deprecated
  all_goals
    have key : ∀ b : Str, populateDescriptorClassLine cm msg ⟨b, i, true⟩
        = populateDescriptorClassLine cm msg ⟨b, i, true⟩ := fun _ => rfl
    conv at key =>
      ext b
      rhs
      simp only [populateDescriptorClassLine, hd, iteB_true, iteB_false, if_true, if_false,
        P_step, PrintComments_step, In_step, List.append_assoc]
    exact ⟨_, _, key⟩

theorem toStringFieldLines_step : ∀ (fields : List FieldProto) (k : Nat) (i : Str),
    ∃ out : Str, ∀ b, toStringFieldLines fields k ⟨b, i, true⟩ = ⟨b ++ out, i, true⟩
  | [], k, i => ⟨[], fun b => by simp [toStringFieldLines]⟩
  | fl :: rest, k, i => by
    obtain ⟨out, hout⟩ := toStringFieldLines_step rest (k + 1) i
    have key : ∀ b : Str, toStringFieldLines (fl :: rest) k ⟨b, i, true⟩
        = toStringFieldLines (fl :: rest) k ⟨b, i, true⟩ := fun _ => rfl
    conv at key =>
      ext b
      rhs
      simp only [toStringFieldLines, P_step, hout, List.append_assoc]
    exact ⟨_, key⟩

theorem populateToString_step (name : Str) (fields : List FieldProto) (i : Str) :
    ∃ (out i' : Str), ∀ b,
      populateToString name fields ⟨b, i, true⟩ = ⟨b ++ out, i', true⟩ := by
  obtain ⟨oT, hT⟩ := toStringFieldLines_step fields 0
    (i ++ (DefaultIndent ++ (DefaultIndent ++ DefaultIndent)))
  have key : ∀ b : Str, populateToString name fields ⟨b, i, true⟩
      = populateToString name fields ⟨b, i, true⟩ := fun _ => rfl
  conv at key =>
    ext b
    rhs
    simp only [populateToString, P_step, In_step, List.append_assoc, hT, Out_step]
  exact ⟨_, _, key⟩

theorem populateDescriptorTail_step (name : Str) (fields : List FieldProto) (i : Str) :
    ∃ (out i' : Str), ∀ b,
      populateDescriptorTail name fields ⟨b, i, true⟩ = ⟨b ++ out, i', true⟩ := by
  obtain ⟨oT, iT, hT⟩ := populateToString_step name fields i
  by_cases hf : fields.length > 0
  all_goals
    have key : ∀ b : Str, populateDescriptorTail name fields ⟨b, i, true⟩
        = populateDescriptorTail name fields ⟨b, i, true⟩ := fun _ => rfl
    conv at key =>
      ext b
      rhs
      simp only [populateDescriptorTail, hf, hT, P_step, Out_step, if_true, if_false,
        List.append_assoc]
    exact ⟨_, _, key⟩

theorem populateNestedEnums_step (vopkg : Str) (f : FileT) :
    ∀ (enums : List EnumT), (∀ e ∈ enums, e.parentNone = false) → ∀ (i : Str),
    ∃ (out i' : Str), ∀ (now b : Str),
      populateNestedEnums vopkg now f enums ⟨b, i, true⟩ = ⟨b ++ out, i', true⟩
  | [], _, i => ⟨[], i, fun now b => by simp [populateNestedEnums]⟩
  | ne :: rest, hne, i => by
    obtain ⟨o1, i1, h1⟩ := populateEnum_nonroot_step vopkg f ne
      (hne ne (List.mem_cons_self ne rest)) i
    obtain ⟨o2, i2, h2⟩ := populateNestedEnums_step vopkg f rest
      (fun x hx => hne x (List.mem_cons_of_mem ne hx)) i1
    have key : ∀ (now b : Str), populateNestedEnums vopkg now f (ne :: rest) ⟨b, i, true⟩
        = populateNestedEnums vopkg now f (ne :: rest) ⟨b, i, true⟩ := fun _ _ => rfl
    conv at key =>
      ext now b
      rhs
      simp only [populateNestedEnums, P_step, h1, h2, List.append_assoc]
    exact ⟨_, _, key⟩

mutual
theorem populateDescriptor_nonroot_step : ∀ (vopkg : Str) (tm : List (Str × Object))
    (f : FileT) (msg : MsgT), msg.parentNone = false → childrenNested msg = true →
    ∀ (i : Str),
    (∃ e, ∀ (now b : Str), populateDescriptor vopkg tm now f msg ⟨b, i, true⟩ = .error e)
    ∨ (∃ (out i' : Str), ∀ (now b : Str),
        populateDescriptor vopkg tm now f msg ⟨b, i, true⟩ = .ok ⟨b ++ out, i', true⟩)
  | vopkg, tm, f, .mk n fields enums nested me dep pn tn pth, hroot, hc, i => by
    simp only [MsgT.parentNone] at hroot
    subst hroot
    rw [childrenNested, Bool.and_eq_true] at hc
    obtain ⟨o1, i1, h1⟩ := populateDescriptorClassLine_step f.comments
      (.mk n fields enums nested me dep false tn pth) i
    rcases populateFields_step tm f pth fields 0 i1 with ⟨e, he⟩ | ⟨o2, h2⟩
    · exact Or.inl ⟨e, fun now b => by
        simp only [populateDescriptor, MsgT.parentNone, iteB_false, if_false, h1, he]⟩
    · have hne : ∀ x ∈ enums, x.parentNone = false := by
        intro x hx
        have hx2 := List.all_eq_true.mp hc.1 x hx
        simpa using hx2
      obtain ⟨o3, i3, h3⟩ := populateNestedEnums_step vopkg f enums hne i1
      rcases populateNestedDescs_step vopkg tm f nested
        (childrenNestedList_props nested hc.2) i3 with ⟨e, he4⟩ | ⟨o4, i4, h4⟩
      · exact Or.inl ⟨e, fun now b => by
          simp only [populateDescriptor, MsgT.parentNone, iteB_false, if_false, h1, h2, h3, he4]⟩
      · obtain ⟨o5, i5, h5⟩ := populateDescriptorTail_step n fields i4
        have key : ∀ (now b : Str),
            populateDescriptor vopkg tm now f (.mk n fields enums nested me dep false tn pth)
              ⟨b, i, true⟩
            = populateDescriptor vopkg tm now f (.mk n fields enums nested me dep false tn pth)
              ⟨b, i, true⟩ := fun _ _ => rfl
        conv at key =>
          ext now b
          rhs
          simp only [populateDescriptor, MsgT.parentNone, iteB_false, if_false, h1, h2, h3, h4, h5,
            List.append_assoc]
        exact Or.inr ⟨_, _, key⟩

theorem populateNestedDescs_step : ∀ (vopkg : Str) (tm : List (Str × Object)) (f : FileT)
    (ms : List MsgT), (∀ m ∈ ms, m.parentNone = false ∧ childrenNested m = true) →
    ∀ (i : Str),
    (∃ e, ∀ (now b : Str), populateNestedDescs vopkg tm now f ms ⟨b, i, true⟩ = .error e)
    ∨ (∃ (out i' : Str), ∀ (now b : Str),
        populateNestedDescs vopkg tm now f ms ⟨b, i, true⟩ = .ok ⟨b ++ out, i', true⟩)
  | vopkg, tm, f, [], _, i => Or.inr ⟨[], i, fun now b => by
      simp [populateNestedDescs]⟩
  | vopkg, tm, f, m :: rest, hms, i => by
    rcases populateDescriptor_nonroot_step vopkg tm f m
      (hms m (List.mem_cons_self m rest)).1 (hms m (List.mem_cons_self m rest)).2 i with
      ⟨e, he⟩ | ⟨o1, i1, h1⟩
    · exact Or.inl ⟨e, fun now b => by
        simp only [populateNestedDescs, P_step, he]⟩
    · rcases populateNestedDescs_step vopkg tm f rest
        (fun x hx => hms x (List.mem_cons_of_mem m hx)) i1 with ⟨e, he2⟩ | ⟨o2, i2, h2⟩
      · exact Or.inl ⟨e, fun now b => by
          simp only [populateNestedDescs, P_step, h1, he2]⟩
      · have key : ∀ (now b : Str), populateNestedDescs vopkg tm now f (m :: rest) ⟨b, i, true⟩
            = populateNestedDescs vopkg tm now f (m :: rest) ⟨b, i, true⟩ := fun _ _ => rfl
        conv at key =>
          ext now b
          rhs
          simp only [populateNestedDescs, P_step, h1, h2, List.append_assoc]
        exact Or.inr ⟨_, _, key⟩
end

theorem populateDescriptor_root_split (vopkg : Str) (tm : List (Str × Object)) (f : FileT)
    (msg : MsgT) (hroot : msg.parentNone = true) (hc : childrenNested msg = true) (i : Str) :
    (∃ e, ∀ (now b : Str), populateDescriptor vopkg tm now f msg ⟨b, i, true⟩ = .error e)
    ∨ (∃ (i' : Str) (bufF : Str → Str), NowAffine bufF ∧ ∀ (now b : Str),
        populateDescriptor vopkg tm now f msg ⟨b, i, true⟩
          = .ok ⟨b ++ bufF now, i', true⟩) := by
  rcases msg with ⟨n, fields, enums, nested, me, dep, pn, tn, pth⟩
  simp only [MsgT.parentNone] at hroot
  subst hroot
  rw [childrenNested, Bool.and_eq_true] at hc
  rcases populateDescriptorHead_split vopkg tm f
      (.mk n fields enums nested me dep true tn pth) i
    with ⟨e, he⟩ | ⟨bufH, haff, hh⟩
  · exact Or.inl ⟨e, fun now b => by
      simp only [populateDescriptor, MsgT.parentNone, iteB_true, if_true, he]⟩
  · obtain ⟨o1, i1, h1⟩ := populateDescriptorClassLine_step f.comments
      (.mk n fields enums nested me dep true tn pth) i
    rcases populateFields_step tm f pth fields 0 i1 with ⟨e, he2⟩ | ⟨o2, h2⟩
    · exact Or.inl ⟨e, fun now b => by
        simp only [populateDescriptor, MsgT.parentNone, iteB_true, if_true, hh, h1, he2]⟩
    · have hne : ∀ x ∈ enums, x.parentNone = false := by
        intro x hx
        have hx2 := List.all_eq_true.mp hc.1 x hx
        simpa using hx2
      obtain ⟨o3, i3, h3⟩ := populateNestedEnums_step vopkg f enums hne i1
      rcases populateNestedDescs_step vopkg tm f nested
        (childrenNestedList_props nested hc.2) i3 with ⟨e, he4⟩ | ⟨o4, i4, h4⟩
      · exact Or.inl ⟨e, fun now b => by
          simp only [populateDescriptor, MsgT.parentNone, iteB_true, if_true, hh, h1, h2, h3, he4]⟩
      · obtain ⟨o5, i5, h5⟩ := populateDescriptorTail_step n fields i4
        have key : ∀ (now b : Str),
            populateDescriptor vopkg tm now f (.mk n fields enums nested me dep true tn pth)
              ⟨b, i, true⟩
            = populateDescriptor vopkg tm now f (.mk n fields enums nested me dep true tn pth)
              ⟨b, i, true⟩ := fun _ _ => rfl
        conv at key =>
          ext now b
          rhs
          simp only [populateDescriptor, MsgT.parentNone, iteB_true, if_true, hh, h1, h2, h3, h4, h5,
            List.append_assoc]
        refine Or.inr ⟨_, _, ?_, key⟩
        repeat
          first
          | exact NowAffine.back _ haff
          | exact haff
          | apply NowAffine.front

theorem convFieldOne_step (tm : List (Str × Object)) (conv varName : Str)
    (field : FieldProto) (i : Str) :
    (∃ e, ∀ b, convFieldOne tm conv varName field ⟨b, i, true⟩ = .error e)
    ∨ (∃ (out i' : Str), ∀ b,
        convFieldOne tm conv varName field ⟨b, i, true⟩ = .ok ⟨b ++ out, i', true⟩) := by
  cases hft : field.type with
  | none =>
    have key : ∀ b : Str, convFieldOne tm conv varName field ⟨b, i, true⟩
        = convFieldOne tm conv varName field ⟨b, i, true⟩ := fun _ => rfl
    conv at key =>
      ext b
      rhs
      simp only [convFieldOne, hft, P_step, List.append_assoc]
    exact Or.inr ⟨_, _, key⟩
  | some ft =>
    cases hlk : lookupStr tm field.typeName with
    | none =>
      cases ft
      case enumT =>
        exact Or.inl ⟨bs "unable to find object for type," ++ field.typeName,
          fun b => by simp only [convFieldOne, hft, hlk]⟩
      case messageT =>
        exact Or.inl ⟨bs "unable to find object for type," ++ field.typeName,
          fun b => by simp only [convFieldOne, hft, hlk]⟩
      all_goals
        have key : ∀ b : Str, convFieldOne tm conv varName field ⟨b, i, true⟩
            = convFieldOne tm conv varName field ⟨b, i, true⟩ := fun _ => rfl
        conv at key =>
          ext b
          rhs
          simp only [convFieldOne, hft, P_step, List.append_assoc]
        exact Or.inr ⟨_, _, key⟩
    | some obj =>
      cases hrep : isRepeated field
      all_goals cases ft
      all_goals
        have key : ∀ b : Str, convFieldOne tm conv varName field ⟨b, i, true⟩
            = convFieldOne tm conv varName field ⟨b, i, true⟩ := fun _ => rfl
        conv at key =>
          ext b
          rhs
          simp only [convFieldOne, hft, hlk, hrep, Bool.not_true, Bool.not_false,
            iteB_true, iteB_false, if_true, if_false, P_step, In_step, Out_step,
            List.append_assoc]
        exact Or.inr ⟨_, _, key⟩

theorem convFields_step (tm : List (Str × Object)) (conv varName : Str) :
    ∀ (fields : List FieldProto) (i : Str),
    (∃ e, ∀ b, convFields tm conv varName fields ⟨b, i, true⟩ = .error e)
    ∨ (∃ (out i' : Str), ∀ b,
        convFields tm conv varName fields ⟨b, i, true⟩ = .ok ⟨b ++ out, i', true⟩)
  | [], i => Or.inr ⟨[], i, fun b => by simp [convFields]⟩
  | fl :: rest, i => by
    rcases convFieldOne_step tm conv varName fl i with ⟨e, he⟩ | ⟨o1, i1, h1⟩
    · exact Or.inl ⟨e, fun b => by simp only [convFields, he]⟩
    · rcases convFields_step tm conv varName rest i1 with ⟨e, he2⟩ | ⟨o2, i2, h2⟩
      · exact Or.inl ⟨e, fun b => by simp only [convFields, h1, he2]⟩
      · have key : ∀ b : Str, convFields tm conv varName (fl :: rest) ⟨b, i, true⟩
            = convFields tm conv varName (fl :: rest) ⟨b, i, true⟩ := fun _ => rfl
        conv at key =>
          ext b
          rhs
          simp only [convFields, h1, h2, List.append_assoc]
        exact Or.inr ⟨_, _, key⟩

theorem populateDescriptorConverter_step (tm : List (Str × Object)) (f : FileT)
    (desc : MsgT) (conv : Str) (i : Str) :
    (∃ e, ∀ b, populateDescriptorConverter tm f desc conv ⟨b, i, true⟩ = .error e)
    ∨ (∃ (out i' : Str), ∀ b,
        populateDescriptorConverter tm f desc conv ⟨b, i, true⟩ = .ok ⟨b ++ out, i', true⟩) := by
  cases hopt : (javaPackageOption f.info).2.2 with
  | false =>
    exact Or.inl ⟨bs "cannot find java output class for," ++ desc.name
        ++ bs " in," ++ f.name,
      fun b => by
        simp only [populateDescriptorConverter, hopt, Bool.not_false, iteB_true, if_true]⟩
  | true =>
    rcases convFields_step tm conv (CamelCase desc.typename.flatten) desc.fields
      (i ++ (DefaultIndent ++ DefaultIndent)) with ⟨e, he⟩ | ⟨oc, ic, hcv⟩
    · exact Or.inl ⟨e, fun b => by
        simp only [populateDescriptorConverter, hopt, Bool.not_true, iteB_false, if_false,
          P_step, In_step, List.append_assoc, he]⟩
    · have key : ∀ b : Str, populateDescriptorConverter tm f desc conv ⟨b, i, true⟩
          = populateDescriptorConverter tm f desc conv ⟨b, i, true⟩ := fun _ => rfl
      conv at key =>
        ext b
        rhs
        simp only [populateDescriptorConverter, hopt, Bool.not_true, iteB_false, if_false,
          P_step, In_step, List.append_assoc, hcv, Out_step]
      exact Or.inr ⟨_, _, key⟩

theorem convBodyNested_step (tm : List (Str × Object)) (f : FileT) (conv : Str) :
    ∀ (ms : List MsgT) (i : Str),
    (∃ e, ∀ b, convBodyNested tm f conv ms ⟨b, i, true⟩ = .error e)
    ∨ (∃ (out i' : Str), ∀ b,
        convBodyNested tm f conv ms ⟨b, i, true⟩ = .ok ⟨b ++ out, i', true⟩)
  | [], i => Or.inr ⟨[], i, fun b => by simp [convBodyNested]⟩
  | m :: rest, i => by
    rcases populateDescriptorConverter_step tm f m conv i with ⟨e, he⟩ | ⟨o1, i1, h1⟩
    · exact Or.inl ⟨e, fun b => by simp only [convBodyNested, P_step, he]⟩
    · rcases convBodyNested_step tm f conv rest i1 with ⟨e, he2⟩ | ⟨o2, i2, h2⟩
      · exact Or.inl ⟨e, fun b => by simp only [convBodyNested, P_step, h1, he2]⟩
      · have key : ∀ b : Str, convBodyNested tm f conv (m :: rest) ⟨b, i, true⟩
            = convBodyNested tm f conv (m :: rest) ⟨b, i, true⟩ := fun _ => rfl
        conv at key =>
          ext b
          rhs
          simp only [convBodyNested, P_step, h1, h2, List.append_assoc]
        exact Or.inr ⟨_, _, key⟩

theorem convBody_step (tm : List (Str × Object)) (f : FileT) (conv : Str) :
    ∀ (ms : List MsgT) (i : Str),
    (∃ e, ∀ b, convBody tm f conv ms ⟨b, i, true⟩ = .error e)
    ∨ (∃ (out i' : Str), ∀ b,
        convBody tm f conv ms ⟨b, i, true⟩ = .ok ⟨b ++ out, i', true⟩)
  | [], i => Or.inr ⟨[], i, fun b => by simp [convBody]⟩
  | d :: rest, i => by
    rcases convBodyNested_step tm f conv d.nested i with ⟨e, he⟩ | ⟨o1, i1, h1⟩
    · exact Or.inl ⟨e, fun b => by simp only [convBody, he]⟩
    · cases hp : d.parentNone with
      | true =>
        rcases populateDescriptorConverter_step tm f d conv i1 with ⟨e, he2⟩ | ⟨o2, i2, h2⟩
        · exact Or.inl ⟨e, fun b => by
            simp only [convBody, h1, P_step, hp, iteB_true, if_true, he2]⟩
        · rcases convBody_step tm f conv rest i2 with ⟨e, he3⟩ | ⟨o3, i3, h3⟩
          · exact Or.inl ⟨e, fun b => by
              simp only [convBody, h1, P_step, hp, iteB_true, if_true, h2, he3]⟩
          · have key : ∀ b : Str, convBody tm f conv (d :: rest) ⟨b, i, true⟩
                = convBody tm f conv (d :: rest) ⟨b, i, true⟩ := fun _ => rfl
            conv at key =>
              ext b
              rhs
              simp only [convBody, h1, P_step, hp, iteB_true, if_true, h2, h3,
                List.append_assoc]
            exact Or.inr ⟨_, _, key⟩
      | false =>
        rcases convBody_step tm f conv rest i1 with ⟨e, he3⟩ | ⟨o3, i3, h3⟩
        · exact Or.inl ⟨e, fun b => by
            simp only [convBody, h1, P_step, hp, iteB_false, if_false, he3]⟩
        · have key : ∀ b : Str, convBody tm f conv (d :: rest) ⟨b, i, true⟩
              = convBody tm f conv (d :: rest) ⟨b, i, true⟩ := fun _ => rfl
          conv at key =>
            ext b
            rhs
            simp only [convBody, h1, P_step, hp, iteB_false, if_false, h3,
              List.append_assoc]
          exact Or.inr ⟨_, _, key⟩

theorem populatePbToBeanConverter_split (vopkg cvtpkg : Str) (tm : List (Str × Object))
    (f : FileT) (cls : Str) (i : Str) :
    (∃ e, ∀ (now b : Str),
      populatePbToBeanConverter vopkg cvtpkg tm now f cls ⟨b, i, true⟩ = .error e)
    ∨ (∃ (i' : Str) (bufF : Str → Str), NowAffine bufF ∧ ∀ (now b : Str),
        populatePbToBeanConverter vopkg cvtpkg tm now f cls ⟨b, i, true⟩
          = .ok ⟨b ++ bufF now, i', true⟩) := by
  obtain ⟨bufH, haff, hh⟩ := populateHeaderComment_split f i
  cases himps : extractConverterImports vopkg tm f with
  | error e =>
    exact Or.inl ⟨e, fun now b => by
      simp only [populatePbToBeanConverter, P_step, hh, himps]⟩
  | ok imps =>
    obtain ⟨oU, hU⟩ := foldl_P_step (fun p => [.s (bs "import "), .s p, .s (bs ";")])
      (sortStrs imps.2) i
    obtain ⟨oS, hS⟩ := foldl_P_step (fun p => [.s (bs "import "), .s p, .s (bs ";")])
      (sortStrs imps.1) i
    rcases convBody_step tm f cls f.allDescs (i ++ DefaultIndent) with ⟨e, hB⟩ | ⟨oB, iB, hB⟩
    · refine Or.inl ⟨e, fun now b => ?_⟩
      by_cases c1 : (sortStrs imps.2).length > 0
      all_goals by_cases c2 : (sortStrs imps.1).length > 0
      all_goals
        simp only [populatePbToBeanConverter, himps, hh, hU, hS, c1, c2, if_true, if_false,
          P_step, In_step, List.append_assoc, hB]
    · by_cases c1 : (sortStrs imps.2).length > 0
      all_goals by_cases c2 : (sortStrs imps.1).length > 0
      all_goals
        have key : ∀ (now b : Str),
            populatePbToBeanConverter vopkg cvtpkg tm now f cls ⟨b, i, true⟩
            = populatePbToBeanConverter vopkg cvtpkg tm now f cls ⟨b, i, true⟩ :=
          fun _ _ => rfl
        conv at key =>
          ext now b
          rhs
          simp only [populatePbToBeanConverter, himps, hh, hU, hS, c1, c2, if_true,
            if_false, P_step, In_step, List.append_assoc, hB, Out_step]
        refine Or.inr ⟨_, _, ?_, key⟩
        repeat
          first
          | exact NowAffine.back _ haff
          | exact haff
          | apply NowAffine.front

theorem generateConverters_split (vopkg cvtpkg : Str) (tm : List (Str × Object))
    (f : FileT) (i : Str) :
    (∃ e, ∀ (now b : Str),
      generateConverters vopkg cvtpkg tm now f ⟨b, i, true⟩ = .error e)
    ∨ (∃ (i' : Str) (bufF : Str → Str), NowAffine bufF ∧ ∀ (now b : Str),
        generateConverters vopkg cvtpkg tm now f ⟨b, i, true⟩
          = .ok (⟨bufF now, i', true⟩,
              (pathJoin (List.splitOn 46 cvtpkg ++ [javaConverterName f ++ bs ".java"]),
               bufF now))) := by
  rcases populatePbToBeanConverter_split vopkg cvtpkg tm f (javaConverterName f) i with
    ⟨e, he⟩ | ⟨iC, bufC, haffC, hC⟩
  · exact Or.inl ⟨e, fun now b => by
      simp only [generateConverters, reset_buffer, he]⟩
  · refine Or.inr ⟨iC, fun now => [] ++ bufC now, NowAffine.front [] haffC, fun now b => ?_⟩
    simp only [generateConverters, reset_buffer, hC]

theorem beansEnums_split (vopkg : Str) (f : FileT) :
    ∀ (l : List EnumT) (i : Str),
    ∃ (i' : Str) (bufG : Str → Str → Str) (metas : List (Str × Str × Str)),
      ∀ (now b : Str), beansEnums vopkg now f l ⟨b, i, true⟩
        = (⟨bufG now b, i', true⟩, metas.map (insNow now))
  | [], i => ⟨i, fun _ b => b, [], fun now b => by simp [beansEnums]⟩
  | e :: rest, i => by
    cases hp : e.parentNone with
    | false =>
      obtain ⟨i', bufG, metas, ih⟩ := beansEnums_split vopkg f rest i
      exact ⟨i', bufG, metas, fun now b => by
        simp only [beansEnums, hp, Bool.not_false, iteB_true, if_true, ih]⟩
    | true =>
      obtain ⟨iE, bufE, haffE, hE⟩ := populateEnum_root_split vopkg f e hp i
      obtain ⟨i2, bufG2, metas2, ih⟩ := beansEnums_split vopkg f rest iE
      obtain ⟨pre, post, hpp⟩ := haffE
      refine ⟨i2, fun now b => bufG2 now ([] ++ bufE now),
        (pathJoin ((getFullPathComponents vopkg e.typename).dropLast
          ++ [e.raw.name ++ bs ".java"]), pre, post) :: metas2, fun now b => ?_⟩
      simp only [beansEnums, hp, Bool.not_true, iteB_false, if_false, reset_buffer, hE,
        ih, List.map_cons, insNow, hpp, List.nil_append, List.append_assoc]

theorem beansDescs_split (vopkg : Str) (tm : List (Str × Object)) (f : FileT) :
    ∀ (l : List MsgT), (∀ d ∈ l, childrenNested d = true) → ∀ (i : Str),
    (∃ e, ∀ (now b : Str), beansDescs vopkg tm now f l ⟨b, i, true⟩ = .error e)
    ∨ (∃ (i' : Str) (bufG : Str → Str → Str) (metas : List (Str × Str × Str)),
        ∀ (now b : Str), beansDescs vopkg tm now f l ⟨b, i, true⟩
          = .ok (⟨bufG now b, i', true⟩, metas.map (insNow now)))
  | [], _, i => Or.inr ⟨i, fun _ b => b, [], fun now b => by simp [beansDescs]⟩
  | d :: rest, hcs, i => by
    have hcs' : ∀ x ∈ rest, childrenNested x = true :=
      fun x hx => hcs x (List.mem_cons_of_mem d hx)
    cases hp : d.parentNone with
    | false =>
      rcases beansDescs_split vopkg tm f rest hcs' i with ⟨e, he⟩ | ⟨i', bufG, metas, ih⟩
      · exact Or.inl ⟨e, fun now b => by
          simp only [beansDescs, hp, Bool.not_false, iteB_true, if_true, he]⟩
      · exact Or.inr ⟨i', bufG, metas, fun now b => by
          simp only [beansDescs, hp, Bool.not_false, iteB_true, if_true, ih]⟩
    | true =>
      rcases populateDescriptor_root_split vopkg tm f d hp
        (hcs d (List.mem_cons_self d rest)) i with ⟨e, he⟩ | ⟨iD, bufD, haffD, hD⟩
      · exact Or.inl ⟨e, fun now b => by
          simp only [beansDescs, hp, Bool.not_true, iteB_false, if_false, reset_buffer, he]⟩
      · rcases beansDescs_split vopkg tm f rest hcs' iD with ⟨e, he2⟩ | ⟨i2, bufG2, metas2, ih⟩
        · exact Or.inl ⟨e, fun now b => by
            simp only [beansDescs, hp, Bool.not_true, iteB_false, if_false, reset_buffer,
              hD, he2]⟩
        · obtain ⟨pre, post, hpp⟩ := haffD
          refine Or.inr ⟨i2, fun now b => bufG2 now ([] ++ bufD now),
            (pathJoin ((getFullPathComponents vopkg d.typename).dropLast
              ++ [d.name ++ bs ".java"]), pre, post) :: metas2, fun now b => ?_⟩
          simp only [beansDescs, hp, Bool.not_true, iteB_false, if_false, reset_buffer,
            hD, ih, List.map_cons, insNow, hpp, List.nil_append, List.append_assoc]

theorem generateBeans_split (vopkg : Str) (tm : List (Str × Object)) (f : FileT)
    (hc : ∀ d ∈ f.allDescs, childrenNested d = true) (i : Str) :
    (∃ e, ∀ (now b : Str), generateBeans vopkg tm now f ⟨b, i, true⟩ = .error e)
    ∨ (∃ (i' : Str) (bufG : Str → Str → Str) (metas : List (Str × Str × Str)),
        ∀ (now b : Str), generateBeans vopkg tm now f ⟨b, i, true⟩
          = .ok (⟨bufG now b, i', true⟩, metas.map (insNow now))) := by
  obtain ⟨iE, bufE, metasE, hE⟩ := beansEnums_split vopkg f f.allEnums i
  rcases beansDescs_split vopkg tm f f.allDescs hc iE with ⟨e, he⟩ | ⟨iD, bufD, metasD, hD⟩
  · exact Or.inl ⟨e, fun now b => by simp only [generateBeans, hE, he]⟩
  · refine Or.inr ⟨iD, fun now b => bufD now (bufE now b), metasE ++ metasD,
      fun now b => ?_⟩
    simp only [generateBeans, hE, hD, List.map_append]

theorem generateAllLoop_split (vopkg cvtpkg : Str) (tm : List (Str × Object)) :
    ∀ (l : List (Nat × FileT)),
      (∀ p ∈ l, ∀ d ∈ (Prod.snd p).allDescs, childrenNested d = true) →
      ∀ (genIdxs : List Nat) (i : Str),
    (∃ e, ∀ (now b : Str) (w : Bool),
        generateAllLoop vopkg cvtpkg tm now l genIdxs ⟨b, i, w⟩ = .error e)
    ∨ (∃ (stF : Str → Str → Bool → GenState) (metas : List (Str × Str × Str)),
        ∀ (now b : Str) (w : Bool),
          generateAllLoop vopkg cvtpkg tm now l genIdxs ⟨b, i, w⟩
            = .ok (stF now b w, metas.map (insNow now)))
  | [], _, genIdxs, i => Or.inr ⟨fun _ b w => ⟨b, i, w⟩, [], fun now b w => by
      simp [generateAllLoop]⟩
  | (idx, f) :: rest, hcs, genIdxs, i => by
    have hcs' : ∀ p ∈ rest, ∀ d ∈ (Prod.snd p).allDescs, childrenNested d = true :=
      fun p hp => hcs p (List.mem_cons_of_mem _ hp)
    cases hg : genIdxs.contains idx with
    | false =>
      rcases generateAllLoop_split vopkg cvtpkg tm rest hcs' genIdxs i with
        ⟨e, he⟩ | ⟨stF, metas, ih⟩
      · exact Or.inl ⟨e, fun now b w => by
          simp only [generateAllLoop, hg, Bool.not_false, iteB_true, if_true, he]⟩
      · exact Or.inr ⟨stF, metas, fun now b w => by
          simp only [generateAllLoop, hg, Bool.not_false, iteB_true, if_true, ih]⟩
    | true =>
      have hcf : ∀ d ∈ f.allDescs, childrenNested d = true :=
        hcs (idx, f) (List.mem_cons_self _ _)
      rcases generateBeans_split vopkg tm f hcf i with ⟨e, heB⟩ | ⟨iB, bufB, metasB, hB⟩
      · exact Or.inl ⟨e, fun now b w => by
          simp only [generateAllLoop, hg, Bool.not_true, iteB_false, if_false,
            set_writeOutput, heB]⟩
      · rcases generateConverters_split vopkg cvtpkg tm f iB with
          ⟨e, heC⟩ | ⟨iC, bufC, haffC, hC⟩
        · exact Or.inl ⟨e, fun now b w => by
            simp only [generateAllLoop, hg, Bool.not_true, iteB_false, if_false,
              set_writeOutput, hB, heC]⟩
        · rcases generateAllLoop_split vopkg cvtpkg tm rest hcs' genIdxs iC with
            ⟨e, heR⟩ | ⟨stR, metasR, hR⟩
          · exact Or.inl ⟨e, fun now b w => by
              simp only [generateAllLoop, hg, Bool.not_true, iteB_false, if_false,
                set_writeOutput, hB, hC, heR]⟩
          · obtain ⟨preC, postC, hppC⟩ := haffC
            refine Or.inr ⟨fun now b w => stR now (bufC now) true,
              metasB ++ ((pathJoin (List.splitOn 46 cvtpkg
                ++ [javaConverterName f ++ bs ".java"]), preC, postC) :: metasR),
              fun now b w => ?_⟩
            simp only [generateAllLoop, hg, Bool.not_true, iteB_false, if_false,
              set_writeOutput, hB, hC, hR, List.map_append, List.map_cons, insNow, hppC,
              List.append_assoc, List.singleton_append, List.cons_append, List.nil_append]

/-- C1 (corrected): the pipeline is deterministic in the descriptor set and
parameter string only up to the embedded clock text.  For every request the
run either fails with one fixed error for every clock value, or there is a
clock-independent list of artifact skeletons (path, prefix, suffix) such
that the output for clock string now is exactly that list with now spliced
between each prefix and suffix.  Byte-identical output across two runs
holds only when the formatted clock strings coincide, refuting the claim
as stated. -/
theorem generation_clock_dependence (req : Request) :
    (∃ e, ∀ now : Str, runPipeline req now = .error e)
    ∨ (∃ metas : List (Str × Str × Str), ∀ now : Str,
        runPipeline req now = .ok (metas.map (insNow now))) := by
  cases hcfg : CommandLineParameters req.parameter with
  | error e => exact Or.inl ⟨e, fun now => by simp only [runPipeline, hcfg]⟩
  | ok cfg =>
    cases hw : wrapChecks req.protoFile with
    | error e => exact Or.inl ⟨e, fun now => by simp only [runPipeline, hcfg, hw]⟩
    | ok u =>
      cases hr : resolveGenFiles req.protoFile req.fileToGenerate with
      | error e => exact Or.inl ⟨e, fun now => by simp only [runPipeline, hcfg, hw, hr]⟩
      | ok genIdxs =>
        have hcs : ∀ p ∈ (req.protoFile.map (wrapFile cfg.valueObjectPackage)).enum,
            ∀ d ∈ (Prod.snd p).allDescs, childrenNested d = true := by
          intro p hp d hd
          have h2 : p.2 ∈ req.protoFile.map (wrapFile cfg.valueObjectPackage) := by
            have h3 := List.mem_map_of_mem Prod.snd hp
            rwa [List.enum_map_snd] at h3
          obtain ⟨fp, hfp, hfpeq⟩ := List.mem_map.mp h2
          rw [← hfpeq] at hd
          exact wrapFile_allDescs_childrenNested cfg.valueObjectPackage fp d hd
        rcases generateAllLoop_split cfg.valueObjectPackage cfg.converterPackage
          (BuildTypeNameMap (req.protoFile.map (wrapFile cfg.valueObjectPackage)))
          ((req.protoFile.map (wrapFile cfg.valueObjectPackage)).enum) hcs genIdxs []
          with ⟨e, he⟩ | ⟨stF, metas, hok⟩
        · exact Or.inl ⟨e, fun now => by
            simp only [runPipeline, hcfg, hw, hr, GenerateAllFiles, he]⟩
        · exact Or.inr ⟨metas, fun now => by
            simp only [runPipeline, hcfg, hw, hr, GenerateAllFiles, hok]⟩

/-- C1 counterexample: one fixed request (an empty proto file and the
mandatory vopkg parameter) generated under two different clock strings
yields two successful responses that are not byte-identical, because the
header comment embeds the formatted generation time. -/
theorem clock_counterexample :
    runPipeline demoReqC1 (bs "A") ≠ runPipeline demoReqC1 (bs "B")
      ∧ (runPipeline demoReqC1 (bs "A")).toOption.isSome = true := by
  constructor
  · decide
  · decide

end PGB
